import Mathlib

/-! Concurrent command execution: process tracking and result correlation.

A shallow embedding of `src/main.c`.  The controller forks one child per
command-line argument, sorts the records of the launched children by process
id, waits for the children in whatever order they terminate and, for every
termination, looks the command path up by binary search.

Conventions of the embedding

* C `int` and `pid_t` values are `Int`.  Every index in the program is bounded
  by `argc`, so no arithmetic of the controller leaves the 32-bit range and no
  wrap-around is modelled.
* A `char *` is an `Option String`; `none` is `NULL`.
* An array of `Process` is a function from the element index to the element;
  indices outside the array are the memory next to it, so a read at index `-1`
  is a read of whatever is stored there.
* `fork`, `execl` and `wait` are the environment: they are given as oracles.
* Every loop is a structurally recursive function over a bound on the number
  of remaining iterations; the bound comes with the proof that the loop
  condition is false once it is used up, so every function is total.
-/

namespace ConcurrentExec

/-! ## Constants and data -/

/-- Exit status of the controller when no argument is given. -/
def NO_ARG_EXIT_STATUS : Int := 1

/-- Exit status of the controller when no child process could be created. -/
def ZERO_CHILD_EXIT_STATUS : Int := 2

/-- Exit status of a child process whose `execl` failed. -/
def EXEC_FAILED_EXIT_STATUS : Int := 3

/-- The struct `Process`: the pid of a child and a pointer to its command path. -/
structure Process where
  processId : Int
  commandPathPtr : Option String
deriving DecidableEq, Repr

/-- An array of `Process`, addressed by element index. -/
abbrev ProcessArr := Int → Process

/-- The assignment `arr[i] = p`. -/
def writeAt (arr : ProcessArr) (i : Int) (p : Process) : ProcessArr :=
  fun j => if j = i then p else arr j

/-- The assignment `arr[i].processId = pid`. -/
def writeProcessId (arr : ProcessArr) (i : Int) (pid : Int) : ProcessArr :=
  writeAt arr i { arr i with processId := pid }

/-- The assignment `arr[i].commandPathPtr = path`. -/
def writeCommandPathPtr (arr : ProcessArr) (i : Int) (path : Option String) : ProcessArr :=
  writeAt arr i { arr i with commandPathPtr := path }

/-- The first `n` elements of an array, as a list. -/
def window (arr : ProcessArr) (n : Nat) : List Process :=
  (List.range n).map (fun (i : Nat) => arr (i : Int))

/-- An array whose first elements are those of a list; `fill` is stored everywhere else. -/
def ofList (l : List Process) (fill : Process) : ProcessArr :=
  fun i => if 0 ≤ i then l.getD i.toNat fill else fill

/-! ## Observable behaviour -/

/-- The lines the program prints. -/
inductive Output where
  | noArgumentsError
  | usage (programName : Option String)
  | blankLines
  | failedToCreateAnyChild
  | failedToForkRemaining (count : Int)
  | failedToExecute (path : Option String)
  | completedSuccessfully (path : Option String)
  | notCompletedSuccessfully (path : Option String)
  | allDone
deriving DecidableEq, Repr

/-- What a run does, in order: system calls with their return value, printed lines, and
the call of `sortChildProcessArray` made by `main`. -/
inductive Event where
  | fork (ret : Int)
  | execl (path : Option String)
  | wait (ret : Int)
  | print (line : Output)
  | sortCall (arrSize : Int)
deriving DecidableEq, Repr

/-- How a function leaves: it returns a value, the process exits, or the process image
has been replaced by `execl`. -/
inductive Flow (α : Type) where
  | returned (value : α)
  | exited (status : Int)
  | replaced (path : Option String)

/-! ## `structArrayInitialise` -/

/-- The `for` loop of `structArrayInitialise`, from `index` on. -/
def structArrayInitialiseLoop (arrayOfCommandPath : List String) (arraySize : Int) :
    (bound : Nat) → (childProcessArray : ProcessArr) → (index : Int) →
    (arraySize - index ≤ bound) → ProcessArr
  | 0, childProcessArray, _, _ => childProcessArray
  | bound + 1, childProcessArray, index, h =>
    if index < arraySize then
      structArrayInitialiseLoop arrayOfCommandPath arraySize bound
        (writeCommandPathPtr childProcessArray index arrayOfCommandPath[index.toNat]?)
        (index + 1) (by omega)
    else childProcessArray

/-- The function `structArrayInitialise`: store the command paths, leave the pids as they are. -/
def structArrayInitialise (arrayOfCommandPath : List String) (childProcessArray : ProcessArr)
    (arraySize : Int) : ProcessArr :=
  structArrayInitialiseLoop arrayOfCommandPath arraySize arraySize.toNat childProcessArray 0
    (by omega)

/-! ## `forkAndExecChildProcesses` -/

/-- What `forkAndExecChildProcesses` leaves behind: the calls it made, the array, and the
way it left (in the parent it returns the number of children). -/
structure ForkOutcome where
  trace : List Event
  childProcessArr : ProcessArr
  flow : Flow Int

/-- The `for` loop of `forkAndExecChildProcesses`, from `index` on.  `fork i` is the value
the call of `fork()` at loop index `i` returns, `execl path` tells whether replacing the
process image succeeds, `numOfChildProcesses` is the current value of that variable. -/
def forkAndExecLoop (fork : Int → Int) (execl : Option String → Bool) (arrSize : Int) :
    (bound : Nat) → (childProcessArr : ProcessArr) → (index : Int) →
    (numOfChildProcesses : Int) → (arrSize - index ≤ bound) → ForkOutcome
  | 0, childProcessArr, _, numOfChildProcesses, _ =>
    ⟨[], childProcessArr, Flow.returned numOfChildProcesses⟩
  | bound + 1, childProcessArr, index, numOfChildProcesses, h =>
    if index < arrSize then
      let currentProcessId := fork index
      if currentProcessId = -1 then
        ⟨[Event.fork currentProcessId], childProcessArr, Flow.returned index⟩
      else if currentProcessId > 0 then
        let rest := forkAndExecLoop fork execl arrSize bound
          (writeProcessId childProcessArr index currentProcessId) (index + 1) (index + 1)
          (by omega)
        ⟨Event.fork currentProcessId :: rest.trace, rest.childProcessArr, rest.flow⟩
      else
        let path := (childProcessArr index).commandPathPtr
        if execl path then
          ⟨[Event.fork currentProcessId, Event.execl path], childProcessArr, Flow.replaced path⟩
        else
          ⟨[Event.fork currentProcessId, Event.execl path,
              Event.print (Output.failedToExecute path)],
            childProcessArr, Flow.exited EXEC_FAILED_EXIT_STATUS⟩
    else ⟨[], childProcessArr, Flow.returned numOfChildProcesses⟩

/-- The function `forkAndExecChildProcesses`.  `indeterminate` is the value the
uninitialised variable `numOfChildProcesses` holds when the function starts. -/
def forkAndExecChildProcesses (fork : Int → Int) (execl : Option String → Bool)
    (indeterminate : Int) (childProcessArr : ProcessArr) (arrSize : Int) : ForkOutcome :=
  forkAndExecLoop fork execl arrSize arrSize.toNat childProcessArr 0 indeterminate (by omega)

/-! ## `getCommandPathFromPid` -/

/-- The binary-search loop of `getCommandPathFromPid`; the result is the final value of
`commandPathPtr`, which is `NULL` unless an iteration found the target. -/
def getCommandPathLoop (childProcessArr : ProcessArr) (targetProcessId : Int) :
    (bound : Nat) → (startIndex endIndex : Int) → (endIndex + 1 - startIndex ≤ bound) →
    Option String
  | 0, _, _, _ => none
  | bound + 1, startIndex, endIndex, h =>
    if hloop : startIndex ≤ endIndex then
      let middleIndex := startIndex + (endIndex - startIndex) / 2
      let currentProcessId := (childProcessArr middleIndex).processId
      if currentProcessId = targetProcessId then
        (childProcessArr middleIndex).commandPathPtr
      else if currentProcessId < targetProcessId then
        getCommandPathLoop childProcessArr targetProcessId bound (middleIndex + 1) endIndex
          (by omega)
      else
        getCommandPathLoop childProcessArr targetProcessId bound startIndex (middleIndex - 1)
          (by omega)
    else none

/-- The function `getCommandPathFromPid`. -/
def getCommandPathFromPid (childProcessArr : ProcessArr) (arrSize : Int)
    (targetProcessId : Int) : Option String :=
  getCommandPathLoop childProcessArr targetProcessId arrSize.toNat 0 (arrSize - 1) (by omega)

/-! ## `sortChildProcessArray` -/

/-- The inner `while` loop of `sortChildProcessArray`: the array and `currentIndex` when
the loop is left. -/
def sortShiftLoop (tempProcessId : Int) :
    (bound : Nat) → (childProcessArr : ProcessArr) → (currentIndex : Int) →
    (currentProcessId : Int) → (currentIndex + 1 ≤ bound) → ProcessArr × Int
  | 0, childProcessArr, currentIndex, _, _ => (childProcessArr, currentIndex)
  | bound + 1, childProcessArr, currentIndex, currentProcessId, h =>
    if currentIndex ≥ 0 ∧ currentProcessId > tempProcessId then
      let shifted := writeAt childProcessArr (currentIndex + 1) (childProcessArr currentIndex)
      sortShiftLoop tempProcessId bound shifted (currentIndex - 1)
        (shifted (currentIndex - 1)).processId (by omega)
    else (childProcessArr, currentIndex)

/-- One iteration of the outer `for` loop of `sortChildProcessArray`. -/
def sortInsertStep (childProcessArr : ProcessArr) (unsortedIndex : Int) : ProcessArr :=
  let tempProcess := childProcessArr unsortedIndex
  let tempProcessId := tempProcess.processId
  let currentIndex := unsortedIndex - 1
  let currentProcessId := (childProcessArr currentIndex).processId
  let left := sortShiftLoop tempProcessId unsortedIndex.toNat childProcessArr currentIndex
    currentProcessId (by omega)
  writeAt left.1 (left.2 + 1) tempProcess

/-- The outer `for` loop of `sortChildProcessArray`, from `unsortedIndex` on. -/
def sortOuterLoop (arrSize : Int) :
    (bound : Nat) → (childProcessArr : ProcessArr) → (unsortedIndex : Int) →
    (arrSize - unsortedIndex ≤ bound) → ProcessArr
  | 0, childProcessArr, _, _ => childProcessArr
  | bound + 1, childProcessArr, unsortedIndex, h =>
    if unsortedIndex < arrSize then
      sortOuterLoop arrSize bound (sortInsertStep childProcessArr unsortedIndex)
        (unsortedIndex + 1) (by omega)
    else childProcessArr

/-- The function `sortChildProcessArray` (insertion sort by process id). -/
def sortChildProcessArray (childProcessArr : ProcessArr) (arrSize : Int) : ProcessArr :=
  sortOuterLoop arrSize (arrSize - 1).toNat childProcessArr 1 (by omega)

/-! ## `checkIfTermSuccess` -/

/-- Modelled from the spec: the macro `WIFEXITED` of `<wait.h>`, which is not part of the
repository; the status denotes a normal termination when its low 7 bits are zero
(`(status & 0x7f) == 0` on the two's complement representation). -/
def WIFEXITED (waitStatusFlags : Int) : Bool :=
  Int.land waitStatusFlags 0x7f == 0

/-- Modelled from the spec: the macro `WEXITSTATUS` of `<wait.h>`, which is not part of
the repository; the exit code is the bits 8..15 of the status
(`(status & 0xff00) >> 8`). -/
def WEXITSTATUS (waitStatusFlags : Int) : Int :=
  (Int.land waitStatusFlags 0xff00) >>> 8

/-- The function `checkIfTermSuccess`. -/
def checkIfTermSuccess (waitStatusFlags : Int) : Int :=
  if WIFEXITED waitStatusFlags then
    if WEXITSTATUS waitStatusFlags = 0 then 0 else -1
  else -1

/-! ## `displayAllChildTermMsg` -/

/-- The function `displayAllChildTermMsg`.  `waits` lists what the successive calls of
`wait()` return, as pairs of the returned pid and the status stored; once the list is
used up there is no child left and `wait()` returns `-1`. -/
def displayAllChildTermMsg (childProcessArr : ProcessArr) (arrSize : Int) :
    (waits : List (Int × Int)) → List Event
  | [] => [Event.wait (-1)]
  | (childProcessId, waitStatusFlags) :: rest =>
    if childProcessId > 0 then
      let commandPathPtr := getCommandPathFromPid childProcessArr arrSize childProcessId
      let terminationSuccess := checkIfTermSuccess waitStatusFlags
      let line :=
        if terminationSuccess = 0 then Output.completedSuccessfully commandPathPtr
        else Output.notCompletedSuccessfully commandPathPtr
      Event.wait childProcessId :: Event.print line ::
        displayAllChildTermMsg childProcessArr arrSize rest
    else [Event.wait childProcessId]

/-! ## `main` -/

/-- The environment of a run of `main`. -/
structure Env where
  /-- Return value of the call of `fork()` made at loop index `i`. -/
  fork : Int → Int
  /-- Whether `execl` of a path replaces the process image. -/
  execl : Option String → Bool
  /-- Successive returns of `wait()`: pid and status. -/
  waits : List (Int × Int)
  /-- Contents of the memory of the uninitialised array `childProcessArr`. -/
  stack : ProcessArr
  /-- Value of the uninitialised variable `numOfChildProcesses` of the spawner. -/
  indeterminate : Int

/-- SECTION 6 of `main` (sorting): the array is sorted only when more than one child
process was created. -/
def mainSortSection (childProcessArr : ProcessArr) (numOfChildProcesses : Int) :
    List Event × ProcessArr :=
  if numOfChildProcesses > 1 then
    ([Event.sortCall numOfChildProcesses],
      sortChildProcessArray childProcessArr numOfChildProcesses)
  else ([], childProcessArr)

/-- The function `main`: the trace of the run and the way the process leaves `main`.
`argv` holds the program name followed by the command paths; `argc` is its length. -/
def main (env : Env) (argv : List String) : List Event × Flow Int :=
  let argc : Int := argv.length
  let numOfCommands := argc - 1
  if argc = 1 then
    ([Event.print Output.noArgumentsError, Event.print (Output.usage argv[0]?)],
      Flow.exited NO_ARG_EXIT_STATUS)
  else
    let childProcessArr := structArrayInitialise (argv.drop 1) env.stack numOfCommands
    let spawned := forkAndExecChildProcesses env.fork env.execl env.indeterminate
      childProcessArr numOfCommands
    match spawned.flow with
    | Flow.exited status =>
      (Event.print Output.blankLines :: spawned.trace, Flow.exited status)
    | Flow.replaced path =>
      (Event.print Output.blankLines :: spawned.trace, Flow.replaced path)
    | Flow.returned numOfChildProcesses =>
      if numOfChildProcesses = 0 then
        (Event.print Output.blankLines :: spawned.trace
            ++ [Event.print Output.failedToCreateAnyChild],
          Flow.exited ZERO_CHILD_EXIT_STATUS)
      else
        let warning :=
          if numOfChildProcesses < numOfCommands then
            [Event.print (Output.failedToForkRemaining (numOfCommands - numOfChildProcesses))]
          else []
        let sorted := mainSortSection spawned.childProcessArr numOfChildProcesses
        let reaped := displayAllChildTermMsg sorted.2 numOfChildProcesses env.waits
        (Event.print Output.blankLines :: spawned.trace ++ warning ++ sorted.1 ++ reaped
            ++ [Event.print Output.allDone],
          Flow.returned 0)

/-- The exit status of the process, when it leaves by `exit` or by returning from `main`. -/
def exitStatus : Flow Int → Option Int
  | Flow.returned value => some value
  | Flow.exited status => some status
  | Flow.replaced _ => none

/-- The per-command results in a trace: the path named and whether the line says
"completed successfully". -/
def results : List Event → List (Option String × Bool)
  | [] => []
  | Event.print (Output.completedSuccessfully path) :: rest => (path, true) :: results rest
  | Event.print (Output.notCompletedSuccessfully path) :: rest => (path, false) :: results rest
  | _ :: rest => results rest

/-- The values returned by the calls of `fork()` in a trace. -/
def forkCalls : List Event → List Int
  | [] => []
  | Event.fork ret :: rest => ret :: forkCalls rest
  | _ :: rest => forkCalls rest

/-- The values returned by the calls of `wait()` in a trace. -/
def waitCalls : List Event → List Int
  | [] => []
  | Event.wait ret :: rest => ret :: waitCalls rest
  | _ :: rest => waitCalls rest

/-- The calls of `sortChildProcessArray` in a trace. -/
def sortCalls : List Event → List Int
  | [] => []
  | Event.sortCall arrSize :: rest => arrSize :: sortCalls rest
  | _ :: rest => sortCalls rest

/-- The counts named by the warnings "failed to create fork for the remaining ... commands"
in a trace. -/
def warnings : List Event → List Int
  | [] => []
  | Event.print (Output.failedToForkRemaining count) :: rest => count :: warnings rest
  | _ :: rest => warnings rest

/-- The values `fork()` returns at the loop indices `0 .. n-1`. -/
def forkResults (fork : Int → Int) (n : Nat) : List Int :=
  (List.range n).map (fun (i : Nat) => fork (i : Int))

/-- The number of successful forks (result `> 0`) that precede the first failing fork
(result `-1`) among the results, all of them if no fork fails. -/
def launchedBeforeFailure (rs : List Int) : Nat :=
  ((rs.takeWhile (fun r => r ≠ -1)).filter (fun r => 0 < r)).length

/-- The termination events received before the first non-positive return of `wait()`. -/
def receivedEvents (waits : List (Int × Int)) : List (Int × Int) :=
  waits.takeWhile (fun w => 0 < w.1)

/-! ## The arithmetic of `int` -/

/-- The largest value of the type `int` (32 bits). -/
def INT_MAX : Int := 2147483647

/-- The smallest value of the type `int` (32 bits). -/
def INT_MIN : Int := -2147483648

/-- The result of an operation on `int` values: the mathematical result when it is a value
of the type, nothing when the operation overflows. -/
def asInt (x : Int) : Option Int :=
  if INT_MIN ≤ x ∧ x ≤ INT_MAX then some x else none

/-- The expression `startIndex + (endIndex - startIndex) / 2` of `getCommandPathFromPid`,
every intermediate result being an `int`; the division of C truncates. -/
def middleIndexInt (startIndex endIndex : Int) : Option Int :=
  (asInt (endIndex - startIndex)).bind fun difference =>
    (asInt (Int.tdiv difference 2)).bind fun half =>
      asInt (startIndex + half)

/-! ## Memory accesses of the sort and iterations of the search -/

/-- An access to an element of `childProcessArr`, by index. -/
inductive Access where
  | read (index : Int)
  | write (index : Int)
deriving DecidableEq, Repr

/-- The inner `while` loop of `sortChildProcessArray` together with the accesses it makes,
in order: each iteration reads the element at `currentIndex`, writes the element at
`currentIndex + 1` and, after `currentIndex--`, reads the `processId` at `currentIndex`. -/
def sortShiftLoopTraced (tempProcessId : Int) :
    (bound : Nat) → (childProcessArr : ProcessArr) → (currentIndex : Int) →
    (currentProcessId : Int) → (currentIndex + 1 ≤ bound) → (ProcessArr × Int) × List Access
  | 0, childProcessArr, currentIndex, _, _ => ((childProcessArr, currentIndex), [])
  | bound + 1, childProcessArr, currentIndex, currentProcessId, h =>
    if currentIndex ≥ 0 ∧ currentProcessId > tempProcessId then
      let shifted := writeAt childProcessArr (currentIndex + 1) (childProcessArr currentIndex)
      let rest := sortShiftLoopTraced tempProcessId bound shifted (currentIndex - 1)
        (shifted (currentIndex - 1)).processId (by omega)
      (rest.1, Access.read currentIndex :: Access.write (currentIndex + 1)
        :: Access.read (currentIndex - 1) :: rest.2)
    else ((childProcessArr, currentIndex), [])

/-- One iteration of the outer `for` loop of `sortChildProcessArray` with its accesses. -/
def sortInsertStepTraced (childProcessArr : ProcessArr) (unsortedIndex : Int) :
    ProcessArr × List Access :=
  let tempProcess := childProcessArr unsortedIndex
  let tempProcessId := tempProcess.processId
  let currentIndex := unsortedIndex - 1
  let currentProcessId := (childProcessArr currentIndex).processId
  let left := sortShiftLoopTraced tempProcessId unsortedIndex.toNat childProcessArr
    currentIndex currentProcessId (by omega)
  (writeAt left.1.1 (left.1.2 + 1) tempProcess,
    Access.read unsortedIndex :: Access.read currentIndex :: left.2
      ++ [Access.write (left.1.2 + 1)])

/-- The outer `for` loop of `sortChildProcessArray` with its accesses. -/
def sortOuterLoopTraced (arrSize : Int) :
    (bound : Nat) → (childProcessArr : ProcessArr) → (unsortedIndex : Int) →
    (arrSize - unsortedIndex ≤ bound) → ProcessArr × List Access
  | 0, childProcessArr, _, _ => (childProcessArr, [])
  | bound + 1, childProcessArr, unsortedIndex, h =>
    if unsortedIndex < arrSize then
      let step := sortInsertStepTraced childProcessArr unsortedIndex
      let rest := sortOuterLoopTraced arrSize bound step.1 (unsortedIndex + 1) (by omega)
      (rest.1, step.2 ++ rest.2)
    else (childProcessArr, [])

/-- The function `sortChildProcessArray` with the accesses to the array it makes. -/
def sortChildProcessArrayTraced (childProcessArr : ProcessArr) (arrSize : Int) :
    ProcessArr × List Access :=
  sortOuterLoopTraced arrSize (arrSize - 1).toNat childProcessArr 1 (by omega)

/-- An iteration of the search loop: the bounds it starts with and the index it reads. -/
structure SearchStep where
  startIndex : Int
  endIndex : Int
  middleIndex : Int
deriving DecidableEq, Repr

/-- The search loop of `getCommandPathFromPid` together with its iterations, in order. -/
def getCommandPathLoopTraced (childProcessArr : ProcessArr) (targetProcessId : Int) :
    (bound : Nat) → (startIndex endIndex : Int) → (endIndex + 1 - startIndex ≤ bound) →
    Option String × List SearchStep
  | 0, _, _, _ => (none, [])
  | bound + 1, startIndex, endIndex, h =>
    if hloop : startIndex ≤ endIndex then
      let middleIndex := startIndex + (endIndex - startIndex) / 2
      let currentProcessId := (childProcessArr middleIndex).processId
      if currentProcessId = targetProcessId then
        ((childProcessArr middleIndex).commandPathPtr, [⟨startIndex, endIndex, middleIndex⟩])
      else if currentProcessId < targetProcessId then
        let rest := getCommandPathLoopTraced childProcessArr targetProcessId bound
          (middleIndex + 1) endIndex (by omega)
        (rest.1, ⟨startIndex, endIndex, middleIndex⟩ :: rest.2)
      else
        let rest := getCommandPathLoopTraced childProcessArr targetProcessId bound startIndex
          (middleIndex - 1) (by omega)
        (rest.1, ⟨startIndex, endIndex, middleIndex⟩ :: rest.2)
    else (none, [])

/-- The function `getCommandPathFromPid` together with the iterations of its loop. -/
def getCommandPathFromPidTraced (childProcessArr : ProcessArr) (arrSize : Int)
    (targetProcessId : Int) : Option String × List SearchStep :=
  getCommandPathLoopTraced childProcessArr targetProcessId arrSize.toNat 0 (arrSize - 1)
    (by omega)

/-! ## Sample inputs -/

/-- A command line with three commands. -/
def sampleArgv : List String := ["run", "/bin/a", "/bin/b", "/bin/c"]

/-- An environment in which the first two forks succeed, with pids in descending order,
and the third fails; the second child terminates first. -/
def sampleEnv : Env :=
  { fork := fun i => [30, 10, -1].getD i.toNat (-1)
    execl := fun _ => true
    waits := [(10, 0), (30, 256)]
    stack := fun _ => ⟨0, none⟩
    indeterminate := 7 }

/-- An environment in which the first fork fails. -/
def failingEnv : Env :=
  { fork := fun _ => -1
    execl := fun _ => true
    waits := []
    stack := fun _ => ⟨0, none⟩
    indeterminate := 7 }

/-- An index with a single record. -/
def sampleIndex : ProcessArr := ofList [⟨5, some "/bin/a"⟩] ⟨0, none⟩

/-- Two records, the second with the smaller pid. -/
def descendingPair : ProcessArr := ofList [⟨2, some "/bin/a"⟩, ⟨1, some "/bin/b"⟩] ⟨0, none⟩

/-- An index whose single record has no command path. -/
def pathlessIndex : ProcessArr := ofList [⟨5, none⟩] ⟨0, none⟩

/-! ## Lemmas on arrays -/

/-- The array after the element at index `k` has been taken out and put back at index `c`,
the elements in between having moved one place to the right. -/
def insertedAt (orig : ProcessArr) (k c : Int) : ProcessArr :=
  fun j => if j < c then orig j else if j = c then orig k else if j ≤ k then orig (j - 1)
    else orig j

/-- The first `n` records are in ascending (non-decreasing) order of `processId`. -/
def Ascending (arr : ProcessArr) (n : Int) : Prop :=
  ∀ i j, 0 ≤ i → i < j → j < n → (arr i).processId ≤ (arr j).processId

theorem writeAt_same (arr : ProcessArr) (i : Int) (p : Process) : writeAt arr i p i = p := by
  simp [writeAt]

theorem writeAt_other (arr : ProcessArr) (i j : Int) (p : Process) (h : j ≠ i) :
    writeAt arr i p j = arr j := by
  simp [writeAt, h]

theorem writeAt_self_eq (arr : ProcessArr) (i : Int) : writeAt arr i (arr i) = arr := by
  funext j
  by_cases h : j = i
  · subst h; simp [writeAt]
  · simp [writeAt, h]

theorem insertedAt_self (orig : ProcessArr) (k : Int) : insertedAt orig k k = orig := by
  funext j
  unfold insertedAt
  split_ifs with h1 h2 h3
  · rfl
  · rw [h2]
  · omega
  · rfl

theorem window_length (arr : ProcessArr) (n : Nat) : (window arr n).length = n := by
  simp [window]

theorem window_getElem (arr : ProcessArr) (n i : Nat) (h : i < (window arr n).length) :
    (window arr n)[i] = arr (i : Int) := by
  simp [window]

theorem window_succ (arr : ProcessArr) (n : Nat) :
    window arr (n + 1) = window arr n ++ [arr (n : Int)] := by
  simp [window, List.range_succ]

theorem mem_window (arr : ProcessArr) (n : Nat) (p : Process) :
    p ∈ window arr n ↔ ∃ i : Nat, i < n ∧ arr (i : Int) = p := by
  simp [window]

/-- Two arrays that agree on the first `n` indices have the same window. -/
theorem window_congr (a b : ProcessArr) (n : Nat)
    (h : ∀ i : Nat, i < n → a (i : Int) = b (i : Int)) : window a n = window b n := by
  apply List.ext_getElem
  · simp [window_length]
  · intro i h1 h2
    rw [window_getElem, window_getElem]
    exact h i (by simpa [window_length] using h1)

/-- Windows that are permutations of each other stay so when they are extended over
indices on which the arrays agree. -/
theorem window_perm_extend (a b : ProcessArr) (m : Nat) (hp : (window a m).Perm (window b m)) :
    ∀ n : Nat, m ≤ n → (∀ i : Nat, m ≤ i → i < n → a (i : Int) = b (i : Int)) →
      (window a n).Perm (window b n) := by
  intro n hmn
  induction n, hmn using Nat.le_induction with
  | base => intro _; exact hp
  | succ n hmn ih =>
    intro hag
    rw [window_succ, window_succ, hag n hmn (Nat.lt_succ_self n)]
    exact List.Perm.append_right _ (ih (fun i h1 h2 => hag i h1 (Nat.lt_succ_of_lt h2)))

theorem window_insertedAt (orig : ProcessArr) (k c : Nat) (hc : c ≤ k) :
    window (insertedAt orig k c) (k + 1)
      = List.insertIdx c (orig (k : Int)) (window orig k) := by
  apply List.ext_getElem
  · rw [window_length, List.length_insertIdx _ _ (by simpa [window_length] using hc),
      window_length]
  · intro i h1 h2
    rw [window_getElem]
    have hi : i < k + 1 := by simpa [window_length] using h1
    rcases Nat.lt_trichotomy i c with hlt | heq | hgt
    · rw [List.getElem_insertIdx_of_lt _ _ _ _ hlt (by simp [window_length]; omega),
        window_getElem]
      simp [insertedAt, hlt]
    · subst heq
      rw [List.getElem_insertIdx_self _ _ _ (by simpa [window_length] using hc)]
      simp [insertedAt]
    · obtain ⟨d, rfl⟩ : ∃ d, i = c + d + 1 := ⟨i - c - 1, by omega⟩
      rw [List.getElem_insertIdx_add_succ _ _ _ _ (by simp [window_length]; omega),
        window_getElem]
      unfold insertedAt
      have e1 : ¬ (((c + d + 1 : Nat) : Int) < (c : Int)) := by omega
      have e2 : ¬ (((c + d + 1 : Nat) : Int) = (c : Int)) := by omega
      have e3 : ((c + d + 1 : Nat) : Int) ≤ (k : Int) := by omega
      rw [if_neg e1, if_neg e2, if_pos e3]
      congr 1
      omega

theorem window_insertedAt_perm (orig : ProcessArr) (k c : Nat) (hc : c ≤ k) :
    (window (insertedAt orig k c) (k + 1)).Perm (window orig (k + 1)) := by
  rw [window_insertedAt orig k c hc, window_succ]
  exact (List.perm_insertIdx _ _ (by simpa [window_length] using hc)).trans
    (List.perm_append_singleton _ _).symm

/-! ## Lemmas on `sortChildProcessArray` -/

/-- Invariant of the inner loop: with the element taken out written back into the gap,
the array is the original one with that element inserted at the gap; everything to the
right of the gap is larger than the element. -/
theorem sortShiftLoop_spec (orig : ProcessArr) (k : Int) :
    ∀ (bound : Nat) (arr : ProcessArr) (ci cp : Int) (h : ci + 1 ≤ bound),
      -1 ≤ ci → ci < k → cp = (arr ci).processId →
      writeAt arr (ci + 1) (orig k) = insertedAt orig k (ci + 1) →
      (∀ j, ci < j → j < k → (orig k).processId < (orig j).processId) →
      -1 ≤ (sortShiftLoop (orig k).processId bound arr ci cp h).2 ∧
      (sortShiftLoop (orig k).processId bound arr ci cp h).2 < k ∧
      writeAt (sortShiftLoop (orig k).processId bound arr ci cp h).1
          ((sortShiftLoop (orig k).processId bound arr ci cp h).2 + 1) (orig k)
        = insertedAt orig k ((sortShiftLoop (orig k).processId bound arr ci cp h).2 + 1) ∧
      (0 ≤ (sortShiftLoop (orig k).processId bound arr ci cp h).2 →
        (orig (sortShiftLoop (orig k).processId bound arr ci cp h).2).processId
          ≤ (orig k).processId) ∧
      (∀ j, (sortShiftLoop (orig k).processId bound arr ci cp h).2 < j → j < k →
        (orig k).processId < (orig j).processId) := by
  intro bound
  induction bound with
  | zero =>
    intro arr ci cp h h1 h2 _ hinv hgt
    simp only [sortShiftLoop]
    refine ⟨h1, h2, hinv, ?_, hgt⟩
    intro h0
    have : ci + 1 ≤ 0 := by exact_mod_cast h
    omega
  | succ bound ih =>
    intro arr ci cp h h1 h2 hcp hinv hgt
    have horig : arr ci = orig ci := by
      have := congrFun hinv ci
      rw [writeAt_other _ _ _ _ (by omega)] at this
      rw [this]
      simp [insertedAt]
    simp only [sortShiftLoop]
    split_ifs with hc
    · obtain ⟨hc0, hcgt⟩ := hc
      apply ih
      · omega
      · omega
      · rfl
      · funext j
        have hj := congrFun hinv j
        by_cases e1 : j = ci
        · subst e1
          have e : j - 1 + 1 = j := by omega
          rw [e, writeAt_same]
          simp [insertedAt]
        · have e : ci - 1 + 1 = ci := by omega
          rw [e, writeAt_other _ _ _ _ e1]
          by_cases e2 : j = ci + 1
          · subst e2
            rw [writeAt_same, horig]
            unfold insertedAt
            rw [if_neg (by omega), if_neg (by omega), if_pos (by omega)]
            congr 1
            omega
          · rw [writeAt_other _ _ _ _ e2]
            rw [writeAt_other _ _ _ _ e2] at hj
            rw [hj]
            unfold insertedAt
            by_cases e3 : j < ci
            · rw [if_pos (by omega), if_pos e3]
            · rw [if_neg (by omega), if_neg (by omega), if_neg e3, if_neg e1]
      · intro j hj1 hj2
        by_cases e : j = ci
        · subst e
          rw [← horig, ← hcp]
          exact hcgt
        · exact hgt j (by omega) hj2
    · refine ⟨h1, h2, hinv, ?_, hgt⟩
      intro h0
      rw [← horig, ← hcp]
      have : ¬ (cp > (orig k).processId) := fun hh => hc ⟨h0, hh⟩
      omega

/-- One pass of the outer loop inserts the element at index `k` at some index `c` of the
prefix: what is left of `c` is not larger (when the prefix is examined that far), what is
right of it is larger. -/
theorem sortInsertStep_spec (arr : ProcessArr) (k : Int) (hk : 0 ≤ k) :
    ∃ c : Int, 0 ≤ c ∧ c ≤ k ∧ sortInsertStep arr k = insertedAt arr k c ∧
      (1 ≤ c → (arr (c - 1)).processId ≤ (arr k).processId) ∧
      (∀ j, c ≤ j → j < k → (arr k).processId < (arr j).processId) := by
  have hspec := sortShiftLoop_spec arr k k.toNat arr (k - 1) (arr (k - 1)).processId
    (by omega) (by omega) (by omega) rfl
    (by
      have e : k - 1 + 1 = k := by omega
      rw [e, writeAt_self_eq, insertedAt_self])
    (by intro j h1 h2; omega)
  obtain ⟨h1, h2, h3, h4, h5⟩ := hspec
  refine ⟨(sortShiftLoop (arr k).processId k.toNat arr (k - 1) (arr (k - 1)).processId
    (by omega)).2 + 1, by omega, by omega, ?_, ?_, ?_⟩
  · exact h3
  · intro hc
    have e : ∀ x : Int, x + 1 - 1 = x := fun x => by omega
    rw [e]
    exact h4 (by omega)
  · intro j hj1 hj2
    exact h5 j (by omega) hj2

theorem insertedAt_frame (orig : ProcessArr) (k c j : Int) (hc : 0 ≤ c) (hck : c ≤ k)
    (hj : j < 0 ∨ k < j) : insertedAt orig k c j = orig j := by
  unfold insertedAt
  rcases hj with hj | hj
  · rw [if_pos (by omega)]
  · rw [if_neg (by omega), if_neg (by omega), if_neg (by omega)]

/-- Inserting keeps the prefix ascending. -/
theorem insertedAt_ascending (orig : ProcessArr) (k c : Int) (hc : 0 ≤ c) (hck : c ≤ k)
    (hasc : Ascending orig k)
    (hle : 1 ≤ c → (orig (c - 1)).processId ≤ (orig k).processId)
    (hgt : ∀ j, c ≤ j → j < k → (orig k).processId < (orig j).processId) :
    Ascending (insertedAt orig k c) (k + 1) := by
  have hleft : ∀ i, 0 ≤ i → i < c → (orig i).processId ≤ (orig k).processId := by
    intro i hi0 hic
    by_cases e : i = c - 1
    · subst e; exact hle (by omega)
    · exact le_trans (hasc i (c - 1) hi0 (by omega) (by omega)) (hle (by omega))
  have hval : ∀ j, 0 ≤ j → j ≤ k →
      insertedAt orig k c j = (if j < c then orig j else if j = c then orig k
        else orig (j - 1)) := by
    intro j _ hjk
    unfold insertedAt
    split_ifs <;> rfl
  intro i j hi hij hj
  rw [hval i hi (by omega), hval j (by omega) (by omega)]
  by_cases hjc : j < c
  · rw [if_pos hjc, if_pos (by omega)]
    exact hasc i j hi hij (by omega)
  · rw [if_neg hjc]
    by_cases hjc2 : j = c
    · rw [if_pos hjc2, if_pos (by omega)]
      exact hleft i hi (by omega)
    · rw [if_neg hjc2]
      by_cases hic : i < c
      · rw [if_pos hic]
        by_cases e : i = j - 1
        · rw [e]
        · exact hasc i (j - 1) hi (by omega) (by omega)
      · rw [if_neg hic]
        by_cases hic2 : i = c
        · rw [if_pos hic2]
          exact le_of_lt (hgt (j - 1) (by omega) (by omega))
        · rw [if_neg hic2]
          exact hasc (i - 1) (j - 1) (by omega) (by omega) (by omega)

theorem sortInsertStep_perm (arr : ProcessArr) (k : Int) (hk : 0 ≤ k) (n : Nat)
    (hn : k < n) : (window (sortInsertStep arr k) n).Perm (window arr n) := by
  obtain ⟨c, hc0, hck, heq, -, -⟩ := sortInsertStep_spec arr k hk
  obtain ⟨k', rfl⟩ := Int.eq_ofNat_of_zero_le hk
  obtain ⟨c', rfl⟩ := Int.eq_ofNat_of_zero_le hc0
  rw [heq]
  apply window_perm_extend _ _ (k' + 1) (window_insertedAt_perm arr k' c' (by omega)) n
    (by omega)
  intro i hi _
  exact insertedAt_frame arr _ _ _ hc0 hck (Or.inr (by omega))

/-- The outer loop, started with an ascending prefix of length `unsortedIndex`, ends with
the first `arrSize` records ascending, a permutation of what they were, and nothing else
touched. -/
theorem sortOuterLoop_spec (n : Int) :
    ∀ (bound : Nat) (arr : ProcessArr) (k : Int) (h : n - k ≤ bound),
      1 ≤ k → k ≤ n → Ascending arr k →
      Ascending (sortOuterLoop n bound arr k h) n ∧
      (window (sortOuterLoop n bound arr k h) n.toNat).Perm (window arr n.toNat) ∧
      (∀ j, j < 0 ∨ n ≤ j → sortOuterLoop n bound arr k h j = arr j) := by
  intro bound
  induction bound with
  | zero =>
    intro arr k h h1 h2 hasc
    simp only [sortOuterLoop]
    have e : k = n := by
      have : n - k ≤ 0 := by exact_mod_cast h
      omega
    refine ⟨e ▸ hasc, List.Perm.refl _, ?_⟩
    first | exact fun _ _ => rfl | simp
  | succ bound ih =>
    intro arr k h h1 h2 hasc
    simp only [sortOuterLoop]
    split_ifs with hlt
    · obtain ⟨c, hc0, hck, heq, hle, hgt⟩ := sortInsertStep_spec arr k (by omega)
      have hasc1 : Ascending (sortInsertStep arr k) (k + 1) := by
        rw [heq]
        exact insertedAt_ascending arr k c hc0 hck hasc hle hgt
      obtain ⟨r1, r2, r3⟩ := ih (sortInsertStep arr k) (k + 1) (by omega) (by omega)
        (by omega) hasc1
      refine ⟨r1, r2.trans (sortInsertStep_perm arr k (by omega) n.toNat (by omega)), ?_⟩
      intro j hj
      rw [r3 j hj, heq]
      exact insertedAt_frame arr k c j hc0 hck (by omega)
    · have e : k = n := by omega
      exact ⟨e ▸ hasc, List.Perm.refl _, fun _ _ => rfl⟩

/-- The sort: ascending result, a permutation of the input, nothing else touched. -/
theorem sortChildProcessArray_spec (arr : ProcessArr) (n : Int) :
    Ascending (sortChildProcessArray arr n) n ∧
    (window (sortChildProcessArray arr n) n.toNat).Perm (window arr n.toNat) ∧
    (∀ j, j < 0 ∨ n ≤ j → sortChildProcessArray arr n j = arr j) := by
  by_cases hn : 1 ≤ n
  · exact sortOuterLoop_spec n _ arr 1 _ (le_refl 1) hn (by intro i j h1 h2 h3; omega)
  · have e : (n - 1).toNat = 0 := by omega
    unfold sortChildProcessArray
    have hout : ∀ (b : Nat) (h : n - 1 ≤ b), b = 0 → sortOuterLoop n b arr 1 h = arr := by
      intro b h hb
      subst hb
      rfl
    rw [hout _ _ e]
    exact ⟨by intro i j h1 h2 h3; omega, List.Perm.refl _, fun _ _ => rfl⟩

/-- On a prefix that is ascending already, a pass of the outer loop changes nothing. -/
theorem sortInsertStep_of_ascending (arr : ProcessArr) (k n : Int) (hk : 1 ≤ k) (hkn : k < n)
    (hasc : Ascending arr n) : sortInsertStep arr k = arr := by
  obtain ⟨c, hc0, hck, heq, -, hgt⟩ := sortInsertStep_spec arr k (by omega)
  have e : c = k := by
    by_contra hne
    have h1 := hgt (k - 1) (by omega) (by omega)
    have h2 := hasc (k - 1) k (by omega) (by omega) hkn
    omega
  rw [heq, e, insertedAt_self]

theorem sortOuterLoop_of_ascending (n : Int) :
    ∀ (bound : Nat) (arr : ProcessArr) (k : Int) (h : n - k ≤ bound),
      1 ≤ k → Ascending arr n → sortOuterLoop n bound arr k h = arr := by
  intro bound
  induction bound with
  | zero => intro arr k h _ _; rfl
  | succ bound ih =>
    intro arr k h h1 hasc
    simp only [sortOuterLoop]
    split_ifs with hlt
    · have e := sortInsertStep_of_ascending arr k n h1 hlt hasc
      have hgo : ∀ (a : ProcessArr) (h' : n - (k + 1) ≤ bound), a = arr →
          sortOuterLoop n bound a (k + 1) h' = arr := by
        intro a h' ha
        subst ha
        exact ih a (k + 1) h' (by omega) hasc
      exact hgo _ _ e
    · rfl

/-- Sorting an array whose first `n` records are ascending changes nothing. -/
theorem sortChildProcessArray_of_ascending (arr : ProcessArr) (n : Int)
    (hasc : Ascending arr n) : sortChildProcessArray arr n = arr :=
  sortOuterLoop_of_ascending n _ arr 1 _ (le_refl 1) hasc

/-- Pointwise ascending order is sortedness of the window. -/
theorem ascending_iff_sorted (arr : ProcessArr) (n : Nat) :
    Ascending arr n ↔
      List.Sorted (fun a b : Process => a.processId ≤ b.processId) (window arr n) := by
  unfold List.Sorted
  rw [List.pairwise_iff_getElem]
  constructor
  · intro hasc i j hi hj hij
    rw [window_getElem, window_getElem]
    rw [window_length] at hj
    exact hasc i j (by omega) (by omega) (by omega)
  · intro hs i j hi hij hj
    obtain ⟨i', rfl⟩ := Int.eq_ofNat_of_zero_le hi
    obtain ⟨j', rfl⟩ := Int.eq_ofNat_of_zero_le (by omega : 0 ≤ j)
    have := hs i' j' (by rw [window_length]; omega) (by rw [window_length]; omega) (by omega)
    rwa [window_getElem, window_getElem] at this

/-! ## Lemmas on `getCommandPathFromPid` -/

/-- When no record between `startIndex` and `endIndex` has the target pid, the search
loop ends with `NULL`, whatever the order of the records. -/
theorem getCommandPathLoop_absent (arr : ProcessArr) (t : Int) :
    ∀ (bound : Nat) (s e : Int) (h : e + 1 - s ≤ bound),
      (∀ j, s ≤ j → j ≤ e → (arr j).processId ≠ t) →
      getCommandPathLoop arr t bound s e h = none := by
  intro bound
  induction bound with
  | zero => intro s e h _; rfl
  | succ bound ih =>
    intro s e h hno
    simp only [getCommandPathLoop]
    split_ifs with hloop heq hlt
    · exact absurd heq (hno _ (by omega) (by omega))
    · exact ih _ _ _ (fun j h1 h2 => hno j (by omega) h2)
    · exact ih _ _ _ (fun j h1 h2 => hno j h1 (by omega))
    · rfl

/-- On ascending records the search loop finds a record with the target pid whenever
there is one between `startIndex` and `endIndex`. -/
theorem getCommandPathLoop_present (arr : ProcessArr) (t n : Int) (hasc : Ascending arr n) :
    ∀ (bound : Nat) (s e : Int) (h : e + 1 - s ≤ bound), 0 ≤ s → e < n →
      (∃ j, s ≤ j ∧ j ≤ e ∧ (arr j).processId = t) →
      ∃ m, s ≤ m ∧ m ≤ e ∧ (arr m).processId = t ∧
        getCommandPathLoop arr t bound s e h = (arr m).commandPathPtr := by
  intro bound
  induction bound with
  | zero =>
    intro s e h _ _ hex
    obtain ⟨j, h1, h2, _⟩ := hex
    have : e + 1 - s ≤ 0 := by exact_mod_cast h
    omega
  | succ bound ih =>
    intro s e h hs he hex
    obtain ⟨j, hj1, hj2, hj3⟩ := hex
    simp only [getCommandPathLoop]
    have hloop : s ≤ e := by omega
    rw [dif_pos hloop]
    split_ifs with heq hlt
    · exact ⟨_, by omega, by omega, heq, rfl⟩
    · have hjm : s + (e - s) / 2 < j := by
        by_contra hcon
        have hle : j ≤ s + (e - s) / 2 := by omega
        rcases eq_or_lt_of_le hle with hjeq | hjlt
        · rw [hjeq] at hj3; exact heq hj3
        · have := hasc j (s + (e - s) / 2) (by omega) hjlt (by omega)
          omega
      obtain ⟨m, m1, m2, m3, m4⟩ := ih (s + (e - s) / 2 + 1) e (by omega) (by omega) he
        ⟨j, by omega, hj2, hj3⟩
      exact ⟨m, by omega, m2, m3, m4⟩
    · have hjm : j < s + (e - s) / 2 := by
        by_contra hcon
        have hle : s + (e - s) / 2 ≤ j := by omega
        rcases eq_or_lt_of_le hle with hjeq | hjlt
        · rw [← hjeq] at hj3; exact heq hj3
        · have := hasc (s + (e - s) / 2) j (by omega) hjlt (by omega)
          omega
      obtain ⟨m, m1, m2, m3, m4⟩ := ih s (s + (e - s) / 2 - 1) (by omega) hs (by omega)
        ⟨j, hj1, by omega, hj3⟩
      exact ⟨m, m1, by omega, m3, m4⟩

/-- A pid that none of the first `arrSize` records has is looked up as `NULL`. -/
theorem getCommandPathFromPid_absent (arr : ProcessArr) (n t : Int)
    (hno : ∀ j, 0 ≤ j → j < n → (arr j).processId ≠ t) :
    getCommandPathFromPid arr n t = none :=
  getCommandPathLoop_absent arr t _ _ _ _ (fun j h1 h2 => hno j h1 (by omega))

/-- On ascending records the lookup finds a record with the target pid whenever there is
one among the first `arrSize`. -/
theorem getCommandPathFromPid_present (arr : ProcessArr) (n t : Int) (hasc : Ascending arr n)
    (hex : ∃ j, 0 ≤ j ∧ j < n ∧ (arr j).processId = t) :
    ∃ m, 0 ≤ m ∧ m < n ∧ (arr m).processId = t ∧
      getCommandPathFromPid arr n t = (arr m).commandPathPtr := by
  obtain ⟨j, h1, h2, h3⟩ := hex
  obtain ⟨m, m1, m2, m3, m4⟩ := getCommandPathLoop_present arr t n hasc n.toNat 0 (n - 1)
    (by omega) (le_refl 0) (by omega) ⟨j, h1, by omega, h3⟩
  exact ⟨m, m1, by omega, m3, m4⟩

/-- The index: ascending records that are a rearrangement of a list of launched records
with pairwise distinct pids.  The lookup of the pid of any launched record gives the
command path of that record. -/
theorem getCommandPathFromPid_of_mem (arr : ProcessArr) (n : Nat) (launched : List Process)
    (hasc : Ascending arr n) (hperm : (window arr n).Perm launched)
    (hnodup : (launched.map Process.processId).Nodup) (p : Process) (hp : p ∈ launched) :
    getCommandPathFromPid arr n p.processId = p.commandPathPtr := by
  have hpw : p ∈ window arr n := hperm.symm.subset hp
  obtain ⟨i, hi, hip⟩ := (mem_window arr n p).1 hpw
  obtain ⟨m, m1, m2, m3, m4⟩ := getCommandPathFromPid_present arr n p.processId hasc
    ⟨i, by omega, by omega, by rw [hip]⟩
  obtain ⟨m', rfl⟩ := Int.eq_ofNat_of_zero_le m1
  have hm : arr (m' : Int) ∈ launched :=
    hperm.subset ((mem_window arr n _).2 ⟨m', by omega, rfl⟩)
  have heq : arr (m' : Int) = p :=
    List.inj_on_of_nodup_map hnodup hm hp m3
  rw [m4, heq]

/-! ## Lemmas on the wait-status macros -/

/-- The low 7 bits of a status, arithmetically. -/
theorem land_0x7f (s : Int) : Int.land s 0x7f = s % 128 := by
  cases s with
  | ofNat m =>
    show ((m &&& 127 : Nat) : Int) = (m : Int) % 128
    have h := Nat.and_pow_two_sub_one_eq_mod m 7
    norm_num at h
    rw [h]
    norm_cast
  | negSucc m =>
    show ((Nat.ldiff 127 m : Nat) : Int) = Int.negSucc m % 128
    have h1 : Nat.ldiff 127 m = 2 ^ 7 - (m % 2 ^ 7 + 1) := by
      apply Nat.eq_of_testBit_eq
      intro i
      rw [Nat.testBit_two_pow_sub_succ (Nat.mod_lt _ (by norm_num)), Nat.testBit_ldiff]
      have e : (127 : Nat) = 2 ^ 7 - 1 := by norm_num
      rw [e, Nat.testBit_two_pow_sub_one, Nat.testBit_mod_two_pow]
      by_cases h : i < 7 <;> simp [h]
    rw [h1]
    have := Nat.mod_lt m (show 0 < 2 ^ 7 by norm_num)
    rw [Int.negSucc_eq]
    omega

theorem testBit_0xff00 (i : Nat) : Nat.testBit 65280 (i + 8) = decide (i < 8) := by
  have e : (65280 : Nat) = (2 ^ 8 - 1) <<< 8 := by decide
  rw [e, Nat.testBit_shiftLeft, Nat.testBit_two_pow_sub_one]
  simp

/-- The bits 8..15 of a status, arithmetically. -/
theorem land_0xff00_shiftRight (s : Int) : (Int.land s 0xff00) >>> 8 = (s / 256) % 256 := by
  cases s with
  | ofNat m =>
    show (((m &&& 65280) >>> 8 : Nat) : Int) = ((m : Int) / 256) % 256
    have h1 : (m &&& 65280) >>> 8 = (m >>> 8) % 2 ^ 8 := by
      apply Nat.eq_of_testBit_eq
      intro i
      rw [Nat.testBit_shiftRight, Nat.testBit_and, Nat.testBit_mod_two_pow,
        Nat.testBit_shiftRight, Nat.add_comm 8 i, testBit_0xff00]
      by_cases h : i < 8 <;> simp [h, Nat.add_comm]
    rw [h1, Nat.shiftRight_eq_div_pow]
    norm_cast
  | negSucc m =>
    show (((Nat.ldiff 65280 m) >>> 8 : Nat) : Int) = (Int.negSucc m / 256) % 256
    have h1 : (Nat.ldiff 65280 m) >>> 8 = 2 ^ 8 - ((m >>> 8) % 2 ^ 8 + 1) := by
      apply Nat.eq_of_testBit_eq
      intro i
      rw [Nat.testBit_two_pow_sub_succ (Nat.mod_lt _ (by norm_num)), Nat.testBit_shiftRight,
        Nat.testBit_ldiff, Nat.testBit_mod_two_pow, Nat.testBit_shiftRight,
        Nat.add_comm 8 i, testBit_0xff00]
      by_cases h : i < 8 <;> simp [h, Nat.add_comm]
    rw [h1, Nat.shiftRight_eq_div_pow]
    have := Nat.mod_lt (m / 2 ^ 8) (show 0 < 2 ^ 8 by norm_num)
    rw [Int.negSucc_eq]
    omega

/-! ## Lemmas on `structArrayInitialise` and `forkAndExecChildProcesses` -/

theorem structArrayInitialiseLoop_spec (paths : List String) (n : Int) :
    ∀ (bound : Nat) (arr : ProcessArr) (idx : Int) (h : n - idx ≤ bound) (j : Int),
      structArrayInitialiseLoop paths n bound arr idx h j
        = if idx ≤ j ∧ j < n then { arr j with commandPathPtr := paths[j.toNat]? }
          else arr j := by
  intro bound
  induction bound with
  | zero =>
    intro arr idx h j
    have : n - idx ≤ 0 := by exact_mod_cast h
    simp only [structArrayInitialiseLoop]
    rw [if_neg (by omega)]
  | succ bound ih =>
    intro arr idx h j
    simp only [structArrayInitialiseLoop]
    split_ifs with h1 h2 h3
    · rw [ih]
      by_cases e : j = idx
      · subst e
        rw [if_neg (by omega)]
        simp [writeCommandPathPtr, writeAt]
      · rw [if_pos ⟨by omega, h2.2⟩]
        simp [writeCommandPathPtr, writeAt, e]
    · rw [ih, if_neg (by omega)]
      have e : j ≠ idx := by omega
      simp [writeCommandPathPtr, writeAt, e]
    · omega
    · rfl

/-- After `structArrayInitialise` the records `0 .. arraySize-1` hold the command paths;
the pids and all other records are as before. -/
theorem structArrayInitialise_spec (paths : List String) (arr : ProcessArr) (n j : Int) :
    structArrayInitialise paths arr n j
      = if 0 ≤ j ∧ j < n then { arr j with commandPathPtr := paths[j.toNat]? } else arr j :=
  structArrayInitialiseLoop_spec paths n _ arr 0 _ j

/-- The spawner in the parent: when the forks at the indices below `K` succeed and either
`K = arrSize` or the fork at index `K` fails, the loop returns `K`, has stored the pids of
the records `index .. K-1` and has called `fork()` for every index up to the failing one. -/
theorem forkAndExecLoop_parent (fork : Int → Int) (execl : Option String → Bool) (n K : Int)
    (hstop : K = n ∨ (K < n ∧ fork K = -1)) :
    ∀ (bound : Nat) (arr : ProcessArr) (idx num : Int) (h : n - idx ≤ bound),
      0 ≤ idx → idx ≤ K → (∀ i, idx ≤ i → i < K → 0 < fork i) → (idx < n ∨ num = idx) →
      (forkAndExecLoop fork execl n bound arr idx num h).flow = Flow.returned K ∧
      (∀ j, (forkAndExecLoop fork execl n bound arr idx num h).childProcessArr j
        = if idx ≤ j ∧ j < K then { arr j with processId := fork j } else arr j) ∧
      (forkAndExecLoop fork execl n bound arr idx num h).trace
        = ((List.range (K - idx).toNat).map (fun (i : Nat) => Event.fork (fork (idx + i))))
          ++ (if K < n then [Event.fork (-1)] else []) := by
  intro bound
  induction bound with
  | zero =>
    intro arr idx num h h0 h1 hpos hnum
    have hb : n - idx ≤ 0 := by exact_mod_cast h
    have hK : K = n := by omega
    have hidx : idx = n := by omega
    have hn : num = idx := by omega
    simp only [forkAndExecLoop]
    refine ⟨by rw [hn, hidx, hK], ?_, ?_⟩
    · intro j
      rw [if_neg (by omega)]
    · have e : (K - idx).toNat = 0 := by omega
      rw [e, if_neg (by omega)]
      rfl
  | succ bound ih =>
    intro arr idx num h h0 h1 hpos hnum
    simp only [forkAndExecLoop]
    by_cases hlt : idx < n
    · rw [if_pos hlt]
      by_cases hK : idx = K
      · have hf : fork idx = -1 := by
          rcases hstop with e | ⟨_, e⟩
          · omega
          · rw [hK]; exact e
        rw [if_pos hf]
        refine ⟨by rw [hK], ?_, ?_⟩
        · intro j
          rw [if_neg (by omega)]
        · have e : (K - idx).toNat = 0 := by omega
          rw [e, if_pos (by omega), hf]
          rfl
      · have hp : 0 < fork idx := hpos idx (le_refl _) (by omega)
        rw [if_neg (by omega), if_pos hp]
        obtain ⟨r1, r2, r3⟩ := ih (writeProcessId arr idx (fork idx)) (idx + 1) (idx + 1)
          (by omega) (by omega) (by omega) (fun i hi1 hi2 => hpos i (by omega) hi2)
          (Or.inr rfl)
        refine ⟨r1, ?_, ?_⟩
        · intro j
          show (forkAndExecLoop fork execl n bound (writeProcessId arr idx (fork idx)) (idx + 1)
            (idx + 1) _).childProcessArr j = _
          rw [r2 j]
          by_cases e : j = idx
          · subst e
            rw [if_neg (by omega), if_pos ⟨le_refl _, by omega⟩]
            simp [writeProcessId, writeAt]
          · by_cases e2 : idx ≤ j ∧ j < K
            · rw [if_pos ⟨by omega, e2.2⟩, if_pos e2]
              simp [writeProcessId, writeAt, e]
            · rw [if_neg (by omega), if_neg e2]
              simp [writeProcessId, writeAt, e]
        · show Event.fork (fork idx) :: (forkAndExecLoop fork execl n bound
            (writeProcessId arr idx (fork idx)) (idx + 1) (idx + 1) _).trace = _
          rw [r3]
          have e : (K - idx).toNat = (K - (idx + 1)).toNat + 1 := by omega
          rw [e, List.range_succ_eq_map, List.map_cons, List.map_map, List.cons_append]
          congr 1
          · simp
          · congr 1
            apply List.map_congr_left
            intro i _
            simp only [Function.comp]
            congr 2
            push_cast
            ring
    · rw [if_neg hlt]
      have hKe : K = n := by omega
      have hidx : idx = n := by omega
      have hn : num = idx := by omega
      refine ⟨by rw [hn, hidx, hKe], ?_, ?_⟩
      · intro j
        rw [if_neg (by omega)]
      · have e : (K - idx).toNat = 0 := by omega
        rw [e, if_neg (by omega)]
        rfl

/-- The spawner in the parent, from the first index on. -/
theorem forkAndExecChildProcesses_parent (fork : Int → Int) (execl : Option String → Bool)
    (indeterminate : Int) (arr : ProcessArr) (n K : Int) (hn : 1 ≤ n) (hK : 0 ≤ K)
    (hstop : K = n ∨ (K < n ∧ fork K = -1)) (hpos : ∀ i, 0 ≤ i → i < K → 0 < fork i) :
    (forkAndExecChildProcesses fork execl indeterminate arr n).flow = Flow.returned K ∧
    (∀ j, (forkAndExecChildProcesses fork execl indeterminate arr n).childProcessArr j
      = if 0 ≤ j ∧ j < K then { arr j with processId := fork j } else arr j) ∧
    (forkAndExecChildProcesses fork execl indeterminate arr n).trace
      = ((List.range K.toNat).map (fun (i : Nat) => Event.fork (fork i)))
        ++ (if K < n then [Event.fork (-1)] else []) := by
  obtain ⟨r1, r2, r3⟩ := forkAndExecLoop_parent fork execl n K hstop n.toNat arr 0
    indeterminate (by omega) (le_refl 0) hK hpos (Or.inl (by omega))
  refine ⟨r1, r2, ?_⟩
  unfold forkAndExecChildProcesses
  rw [r3]
  simp

theorem forkResults_length (fork : Int → Int) (n : Nat) : (forkResults fork n).length = n := by
  simp [forkResults]

theorem forkResults_getElem? (fork : Int → Int) (n i : Nat) (h : i < n) :
    (forkResults fork n)[i]? = some (fork i) := by
  simp [forkResults, h]

/-- In a sequence of results each of which is `-1` or positive, the results before the
count are positive, and the count is the length or the index of a failure. -/
theorem launchedBeforeFailure_spec (rs : List Int) (h : ∀ r ∈ rs, r = -1 ∨ 0 < r) :
    launchedBeforeFailure rs ≤ rs.length ∧
    (∀ i, i < launchedBeforeFailure rs → ∃ v, rs[i]? = some v ∧ 0 < v) ∧
    (launchedBeforeFailure rs = rs.length ∨
      (launchedBeforeFailure rs < rs.length ∧ rs[launchedBeforeFailure rs]? = some (-1))) := by
  induction rs with
  | nil => simp [launchedBeforeFailure]
  | cons r rs ih =>
    have hr := h r (List.mem_cons_self _ _)
    obtain ⟨i1, i2, i3⟩ := ih (fun x hx => h x (List.mem_cons_of_mem _ hx))
    by_cases e : r = -1
    · subst e
      simp [launchedBeforeFailure]
    · have hp : 0 < r := by omega
      have hK : launchedBeforeFailure (r :: rs) = launchedBeforeFailure rs + 1 := by
        simp [launchedBeforeFailure, List.takeWhile_cons, e, hp]
      rw [hK]
      refine ⟨by simpa using i1, ?_, ?_⟩
      · intro i hi
        cases i with
        | zero => exact ⟨r, by simp, hp⟩
        | succ i => simpa using i2 i (by omega)
      · rcases i3 with i3 | ⟨i3, i4⟩
        · left; simp [i3]
        · right; exact ⟨by simpa using i3, by simpa using i4⟩

/-! ## Lemmas on traces -/

theorem results_append (a b : List Event) : results (a ++ b) = results a ++ results b := by
  induction a with
  | nil => rfl
  | cons e a ih =>
    cases e with
    | print line => cases line <;> simp [results, ih]
    | _ => simp [results, ih]

theorem forkCalls_append (a b : List Event) :
    forkCalls (a ++ b) = forkCalls a ++ forkCalls b := by
  induction a with
  | nil => rfl
  | cons e a ih => cases e <;> simp [forkCalls, ih]

theorem waitCalls_append (a b : List Event) :
    waitCalls (a ++ b) = waitCalls a ++ waitCalls b := by
  induction a with
  | nil => rfl
  | cons e a ih => cases e <;> simp [waitCalls, ih]

theorem sortCalls_append (a b : List Event) :
    sortCalls (a ++ b) = sortCalls a ++ sortCalls b := by
  induction a with
  | nil => rfl
  | cons e a ih => cases e <;> simp [sortCalls, ih]

theorem warnings_append (a b : List Event) : warnings (a ++ b) = warnings a ++ warnings b := by
  induction a with
  | nil => rfl
  | cons e a ih =>
    cases e with
    | print line => cases line <;> simp [warnings, ih]
    | _ => simp [warnings, ih]

/-- A trace of `fork()` calls only. -/
theorem extract_forkEvents (l : List Int) :
    forkCalls (l.map Event.fork) = l ∧ results (l.map Event.fork) = [] ∧
    waitCalls (l.map Event.fork) = [] ∧ sortCalls (l.map Event.fork) = [] ∧
    warnings (l.map Event.fork) = [] := by
  induction l with
  | nil => simp [forkCalls, results, waitCalls, sortCalls, warnings]
  | cons x l ih =>
    obtain ⟨h1, h2, h3, h4, h5⟩ := ih
    simp [forkCalls, results, waitCalls, sortCalls, warnings, h1, h2, h3, h4, h5]

/-! ## Lemmas on `displayAllChildTermMsg` -/

/-- The reaper emits one result for each event received before the first non-positive
return of `wait()`, in the order received: the path looked up for the pid, and whether the
status is classified as a success. -/
theorem results_displayAllChildTermMsg (arr : ProcessArr) (n : Int) (waits : List (Int × Int)) :
    results (displayAllChildTermMsg arr n waits)
      = (receivedEvents waits).map
          (fun w => (getCommandPathFromPid arr n w.1, decide (checkIfTermSuccess w.2 = 0))) := by
  induction waits with
  | nil => simp [displayAllChildTermMsg, results, receivedEvents]
  | cons w waits ih =>
    obtain ⟨pid, st⟩ := w
    unfold receivedEvents at ih ⊢
    by_cases hp : 0 < pid
    · by_cases hs : checkIfTermSuccess st = 0
      · simp [displayAllChildTermMsg, results, List.takeWhile_cons, hp, hs, ih]
      · simp [displayAllChildTermMsg, results, List.takeWhile_cons, hp, hs, ih]
    · simp [displayAllChildTermMsg, results, List.takeWhile_cons, hp]

/-- The reaper makes no call of `fork()`, no call of the sort, prints no warning. -/
theorem displayAllChildTermMsg_quiet (arr : ProcessArr) (n : Int) (waits : List (Int × Int)) :
    forkCalls (displayAllChildTermMsg arr n waits) = [] ∧
    sortCalls (displayAllChildTermMsg arr n waits) = [] ∧
    warnings (displayAllChildTermMsg arr n waits) = [] := by
  induction waits with
  | nil => simp [displayAllChildTermMsg, forkCalls, sortCalls, warnings]
  | cons w waits ih =>
    obtain ⟨pid, st⟩ := w
    obtain ⟨h1, h2, h3⟩ := ih
    by_cases hp : 0 < pid
    · by_cases hs : checkIfTermSuccess st = 0
      · simp [displayAllChildTermMsg, forkCalls, sortCalls, warnings, hp, hs, h1, h2, h3]
      · simp [displayAllChildTermMsg, forkCalls, sortCalls, warnings, hp, hs, h1, h2, h3]
    · simp [displayAllChildTermMsg, forkCalls, sortCalls, warnings, hp]

/-- When every event has a positive pid the reaper waits once per event and once more,
for the return that tells that no child is left. -/
theorem waitCalls_displayAllChildTermMsg (arr : ProcessArr) (n : Int)
    (waits : List (Int × Int)) (hpos : ∀ w ∈ waits, 0 < w.1) :
    waitCalls (displayAllChildTermMsg arr n waits) = waits.map Prod.fst ++ [-1] := by
  induction waits with
  | nil => simp [displayAllChildTermMsg, waitCalls]
  | cons w waits ih =>
    obtain ⟨pid, st⟩ := w
    have hp : 0 < pid := hpos (pid, st) (List.mem_cons_self _ _)
    have ih := ih (fun x hx => hpos x (List.mem_cons_of_mem _ hx))
    by_cases hs : checkIfTermSuccess st = 0
    · simp [displayAllChildTermMsg, waitCalls, hp, hs, ih]
    · simp [displayAllChildTermMsg, waitCalls, hp, hs, ih]

theorem receivedEvents_of_pos (waits : List (Int × Int)) (hpos : ∀ w ∈ waits, 0 < w.1) :
    receivedEvents waits = waits := by
  unfold receivedEvents
  rw [List.takeWhile_eq_self_iff]
  intro w hw
  simpa using hpos w hw

/-- SECTION 6 of `main` leaves the first records ascending, a rearrangement of what they
were, and touches nothing else. -/
theorem mainSortSection_spec (arr : ProcessArr) (K : Int) :
    Ascending (mainSortSection arr K).2 K ∧
    (window (mainSortSection arr K).2 K.toNat).Perm (window arr K.toNat) ∧
    (∀ j, j < 0 ∨ K ≤ j → (mainSortSection arr K).2 j = arr j) := by
  unfold mainSortSection
  split_ifs with h
  · exact sortChildProcessArray_spec arr K
  · exact ⟨by intro i j h1 h2 h3; omega, List.Perm.refl _, fun _ _ => rfl⟩

/-- Distinct pids turn the ascending order into a strictly ascending one. -/
theorem sorted_lt_of_sorted_le (l : List Process)
    (hs : List.Sorted (fun a b : Process => a.processId ≤ b.processId) l)
    (hn : (l.map Process.processId).Nodup) :
    List.Sorted (fun a b : Process => a.processId < b.processId) l := by
  unfold List.Sorted at hs ⊢
  have hne : l.Pairwise (fun a b : Process => a.processId ≠ b.processId) := by
    unfold List.Nodup at hn
    rwa [List.pairwise_map] at hn
  exact (hs.and hne).imp (fun h => lt_of_le_of_ne h.1 h.2)

/-- Two lists of records with the same content and distinct pids, both ascending by pid,
are the same list. -/
theorem sorted_unique (l1 l2 : List Process) (hp : l1.Perm l2)
    (hn : (l1.map Process.processId).Nodup)
    (h1 : List.Sorted (fun a b : Process => a.processId ≤ b.processId) l1)
    (h2 : List.Sorted (fun a b : Process => a.processId ≤ b.processId) l2) : l1 = l2 := by
  have hn2 : (l2.map Process.processId).Nodup := (hp.map _).nodup_iff.1 hn
  haveI : IsAntisymm Process (fun a b : Process => a.processId < b.processId) :=
    ⟨fun a b hab hba => absurd hab (not_lt.2 (le_of_lt hba))⟩
  exact List.eq_of_perm_of_sorted hp (sorted_lt_of_sorted_le l1 h1 hn)
    (sorted_lt_of_sorted_le l2 h2 hn2)

/-- The registry after initialisation and spawning: the records below the count hold the
pid returned by their fork and the path of their command. -/
theorem spawned_registry (paths : List String) (stack : ProcessArr) (fork : Int → Int)
    (execl : Option String → Bool) (indeterminate : Int) (K : Nat) (hK : 1 ≤ K)
    (hKn : K ≤ paths.length) (hpos : ∀ i : Nat, i < K → 0 < fork i)
    (hstop : K = paths.length ∨ fork K = -1) :
    (forkAndExecChildProcesses fork execl indeterminate
      (structArrayInitialise paths stack paths.length) paths.length).flow = Flow.returned (K : Int) ∧
    (∀ i : Nat, i < K → (forkAndExecChildProcesses fork execl indeterminate
      (structArrayInitialise paths stack paths.length) paths.length).childProcessArr i
        = ⟨fork i, paths[i]?⟩) ∧
    (forkAndExecChildProcesses fork execl indeterminate
      (structArrayInitialise paths stack paths.length) paths.length).trace
      = ((List.range K).map (fun (i : Nat) => Event.fork (fork i)))
        ++ (if (K : Int) < paths.length then [Event.fork (-1)] else []) := by
  have hstop2 : (K : Int) = paths.length ∨ ((K : Int) < paths.length ∧ fork K = -1) := by
    rcases hstop with h | h
    · left; exact_mod_cast h
    · by_cases e : K = paths.length
      · left; exact_mod_cast e
      · right; exact ⟨by omega, h⟩
  obtain ⟨r1, r2, r3⟩ := forkAndExecChildProcesses_parent fork execl indeterminate
    (structArrayInitialise paths stack paths.length) paths.length K (by omega) (by omega)
    hstop2 (by
      intro i h0 hi
      obtain ⟨i', rfl⟩ := Int.eq_ofNat_of_zero_le h0
      exact hpos i' (by omega))
  refine ⟨r1, ?_, by simpa using r3⟩
  intro i hi
  rw [r2, if_pos ⟨by omega, by omega⟩, structArrayInitialise_spec, if_pos ⟨by omega, by omega⟩]
  simp

/-! ## Lemmas on `main` -/

/-- A run of `main` in the parent in which `K ≥ 1` children are created: the trace is the
forks, the warning when `K` is less than the number of commands, the sort when `K > 1`,
the reaping and the sign-off line; `main` returns `0`. -/
theorem main_launched (env : Env) (argv : List String) (K : Nat) (hK : 1 ≤ K)
    (hKn : K + 1 ≤ argv.length) (hpos : ∀ i : Nat, i < K → 0 < env.fork i)
    (hstop : K + 1 = argv.length ∨ env.fork K = -1) :
    main env argv
      = (Event.print Output.blankLines ::
          (((List.range K).map (fun (i : Nat) => Event.fork (env.fork i)))
            ++ (if (K : Int) < (argv.drop 1).length then [Event.fork (-1)] else []))
          ++ (if (K : Int) < (argv.drop 1).length then
              [Event.print (Output.failedToForkRemaining (((argv.drop 1).length : Int) - K))]
            else [])
          ++ (mainSortSection (forkAndExecChildProcesses env.fork env.execl env.indeterminate
              (structArrayInitialise (argv.drop 1) env.stack (argv.drop 1).length)
              (argv.drop 1).length).childProcessArr K).1
          ++ displayAllChildTermMsg
            (mainSortSection (forkAndExecChildProcesses env.fork env.execl env.indeterminate
              (structArrayInitialise (argv.drop 1) env.stack (argv.drop 1).length)
              (argv.drop 1).length).childProcessArr K).2 K env.waits
          ++ [Event.print Output.allDone],
        Flow.returned 0) := by
  have hlen : ((argv.drop 1).length : Int) = (argv.length : Int) - 1 := by
    rw [List.length_drop]
    omega
  obtain ⟨r1, -, r3⟩ := spawned_registry (argv.drop 1) env.stack env.fork env.execl
    env.indeterminate K hK (by rw [List.length_drop]; omega) hpos
    (by
      rcases hstop with h | h
      · left; rw [List.length_drop]; omega
      · right; exact h)
  unfold main
  rw [if_neg (by omega), ← hlen]
  simp only [r1, r3]
  rw [if_neg (by omega)]

theorem extract_mainSortSection (arr : ProcessArr) (K : Int) :
    forkCalls (mainSortSection arr K).1 = [] ∧ results (mainSortSection arr K).1 = [] ∧
    waitCalls (mainSortSection arr K).1 = [] ∧ warnings (mainSortSection arr K).1 = [] ∧
    sortCalls (mainSortSection arr K).1 = (if K > 1 then [K] else []) := by
  unfold mainSortSection
  split_ifs <;> simp [forkCalls, results, waitCalls, warnings, sortCalls]

theorem map_fork_events (fork : Int → Int) (K : Nat) :
    (List.range K).map (fun (i : Nat) => Event.fork (fork i))
      = (forkResults fork K).map Event.fork := by
  simp [forkResults, List.map_map, Function.comp]

/-- What can be observed of a run of `main` in which `K ≥ 1` children are created. -/
theorem main_launched_observations (env : Env) (argv : List String) (K : Nat) (hK : 1 ≤ K)
    (hKn : K + 1 ≤ argv.length) (hpos : ∀ i : Nat, i < K → 0 < env.fork i)
    (hstop : K + 1 = argv.length ∨ env.fork K = -1) :
    (main env argv).2 = Flow.returned 0 ∧
    forkCalls (main env argv).1
      = forkResults env.fork K ++ (if K + 1 < argv.length then [-1] else []) ∧
    warnings (main env argv).1
      = (if K + 1 < argv.length then [(argv.length : Int) - 1 - K] else []) ∧
    sortCalls (main env argv).1 = (if 1 < K then [(K : Int)] else []) ∧
    results (main env argv).1
      = results (displayAllChildTermMsg
          (mainSortSection (forkAndExecChildProcesses env.fork env.execl env.indeterminate
            (structArrayInitialise (argv.drop 1) env.stack (argv.drop 1).length)
            (argv.drop 1).length).childProcessArr K).2 K env.waits) ∧
    waitCalls (main env argv).1
      = waitCalls (displayAllChildTermMsg
          (mainSortSection (forkAndExecChildProcesses env.fork env.execl env.indeterminate
            (structArrayInitialise (argv.drop 1) env.stack (argv.drop 1).length)
            (argv.drop 1).length).childProcessArr K).2 K env.waits) := by
  have hlen : ((argv.drop 1).length : Int) = (argv.length : Int) - 1 := by
    rw [List.length_drop]
    omega
  rw [main_launched env argv K hK hKn hpos hstop, map_fork_events]
  generalize (forkAndExecChildProcesses env.fork env.execl env.indeterminate
    (structArrayInitialise (argv.drop 1) env.stack (argv.drop 1).length)
    (argv.drop 1).length).childProcessArr = registry
  obtain ⟨f1, f2, f3, f4, f5⟩ := extract_forkEvents (forkResults env.fork K)
  obtain ⟨m1, m2, m3, m4, m5⟩ := extract_mainSortSection registry K
  obtain ⟨d1, d2, d3⟩ := displayAllChildTermMsg_quiet (mainSortSection registry K).2 K
    env.waits
  rw [hlen]
  by_cases hlt : K + 1 < argv.length
  · have hlt2 : (K : Int) < (argv.length : Int) - 1 := by omega
    rw [if_pos hlt2, if_pos hlt2, if_pos hlt, if_pos hlt]
    refine ⟨rfl, ?_, ?_, ?_, ?_, ?_⟩
    · simp [forkCalls, forkCalls_append, f1, m1, d1]
    · simp [warnings, warnings_append, f5, m4, d3]
    · simp [sortCalls, sortCalls_append, f4, m5, d2]
    · simp [results, results_append, f2, m2]
    · simp [waitCalls, waitCalls_append, f3, m3]
  · have hlt2 : ¬ ((K : Int) < (argv.length : Int) - 1) := by omega
    rw [if_neg hlt2, if_neg hlt2, if_neg hlt, if_neg hlt]
    refine ⟨rfl, ?_, ?_, ?_, ?_, ?_⟩
    · simp [forkCalls, forkCalls_append, f1, m1, d1]
    · simp [warnings, warnings_append, f5, m4, d3]
    · simp [sortCalls, sortCalls_append, f4, m5, d2]
    · simp [results, results_append, f2, m2]
    · simp [waitCalls, waitCalls_append, f3, m3]

/-- A run of `main` in which the first fork fails. -/
theorem main_none_launched (env : Env) (argv : List String) (hargv : 2 ≤ argv.length)
    (hfail : env.fork 0 = -1) :
    main env argv
      = ([Event.print Output.blankLines, Event.fork (-1),
          Event.print Output.failedToCreateAnyChild], Flow.exited ZERO_CHILD_EXIT_STATUS) := by
  obtain ⟨r1, -, r3⟩ := forkAndExecChildProcesses_parent env.fork env.execl env.indeterminate
    (structArrayInitialise (argv.drop 1) env.stack ((argv.length : Int) - 1))
    ((argv.length : Int) - 1) 0 (by omega) (le_refl 0) (Or.inr ⟨by omega, hfail⟩)
    (by intro i h0 hi; omega)
  unfold main
  rw [if_neg (by omega)]
  simp only [r1, r3]
  rw [if_pos trivial, if_pos (by omega)]
  rfl

/-- The paths stored in the first records of a list of commands. -/
theorem map_getElem?_range (paths : List String) (K : Nat) (hK : K ≤ paths.length) :
    (List.range K).map (fun (i : Nat) => paths[i]?) = (paths.take K).map some := by
  apply List.ext_getElem
  · simp [hK]
  · intro i h1 h2
    have hi : i < K := by simpa using h1
    simp [List.getElem?_eq_getElem (show i < paths.length by omega)]

/-- The reaper on the index built from launched records with distinct positive pids, fed
the termination of every launched child once: one result per child, the looked-up paths
are the launched paths. -/
theorem reaper_results (arr : ProcessArr) (K : Nat)
    (hpos : ∀ i : Nat, i < K → 0 < (arr i).processId)
    (hdistinct : ((window arr K).map Process.processId).Nodup) (waits : List (Int × Int))
    (hevents : (waits.map Prod.fst).Perm ((window arr K).map Process.processId)) :
    (results (displayAllChildTermMsg (mainSortSection arr K).2 K waits)).length = K ∧
    ((results (displayAllChildTermMsg (mainSortSection arr K).2 K waits)).map Prod.fst).Perm
      ((window arr K).map Process.commandPathPtr) ∧
    waitCalls (displayAllChildTermMsg (mainSortSection arr K).2 K waits)
      = waits.map Prod.fst ++ [-1] := by
  obtain ⟨s1, s2, -⟩ := mainSortSection_spec arr K
  rw [Int.toNat_ofNat] at s2
  have hwpos : ∀ w ∈ waits, 0 < w.1 := by
    intro w hw
    have h1 : w.1 ∈ (window arr K).map Process.processId :=
      hevents.subset (List.mem_map_of_mem _ hw)
    obtain ⟨p, hp, hpe⟩ := List.mem_map.1 h1
    obtain ⟨i, hi, rfl⟩ := (mem_window arr K p).1 hp
    rw [← hpe]
    exact hpos i hi
  rw [results_displayAllChildTermMsg, receivedEvents_of_pos waits hwpos]
  refine ⟨?_, ?_, waitCalls_displayAllChildTermMsg _ _ waits hwpos⟩
  · have := hevents.length_eq
    simpa [window_length] using this
  · rw [List.map_map]
    have e1 : waits.map (Prod.fst ∘ fun w : Int × Int =>
        (getCommandPathFromPid (mainSortSection arr K).2 K w.1,
          decide (checkIfTermSuccess w.2 = 0)))
        = (waits.map Prod.fst).map (getCommandPathFromPid (mainSortSection arr K).2 K) := by
      rw [List.map_map]
      rfl
    rw [e1]
    refine (hevents.map _).trans ?_
    rw [List.map_map]
    apply List.Perm.of_eq
    apply List.map_congr_left
    intro p hp
    exact getCommandPathFromPid_of_mem _ K _ s1 s2 hdistinct p hp

/-- The first records of the registry after spawning, seen as lists of pids and paths. -/
theorem spawned_window (paths : List String) (stack : ProcessArr) (fork : Int → Int)
    (execl : Option String → Bool) (indeterminate : Int) (K : Nat) (hK : 1 ≤ K)
    (hKn : K ≤ paths.length) (hpos : ∀ i : Nat, i < K → 0 < fork i)
    (hstop : K = paths.length ∨ fork K = -1) :
    (window (forkAndExecChildProcesses fork execl indeterminate
      (structArrayInitialise paths stack paths.length) paths.length).childProcessArr K).map
        Process.processId = forkResults fork K ∧
    (window (forkAndExecChildProcesses fork execl indeterminate
      (structArrayInitialise paths stack paths.length) paths.length).childProcessArr K).map
        Process.commandPathPtr = (paths.take K).map some := by
  obtain ⟨-, r2, -⟩ := spawned_registry paths stack fork execl indeterminate K hK hKn hpos
    hstop
  constructor
  · unfold window forkResults
    rw [List.map_map]
    apply List.map_congr_left
    intro j hj
    simp only [Function.comp, r2 j (List.mem_range.1 hj)]
  · rw [← map_getElem?_range paths K hKn]
    unfold window
    rw [List.map_map]
    apply List.map_congr_left
    intro j hj
    simp only [Function.comp, r2 j (List.mem_range.1 hj)]

theorem forkResults_nodup (fork : Int → Int) (K : Nat)
    (hdistinct : ∀ i j : Nat, i < K → j < K → fork i = fork j → i = j) :
    (forkResults fork K).Nodup := by
  unfold forkResults
  apply List.Nodup.map_on _ (List.nodup_range K)
  intro a ha b hb hab
  exact hdistinct a b (List.mem_range.1 ha) (List.mem_range.1 hb) hab

/-! ## The claims -/

/-- C2: for every record array and every `arrSize ≥ 0`, after
`sortChildProcessArray(arr, arrSize)` the first `arrSize` records are in ascending
(non-decreasing) order of `processId` and are a permutation of the original first `arrSize`
records, each record keeping its own pairing of pid and command path; already sorted and
reverse-sorted inputs are instances. -/
theorem sortChildProcessArray_ascending_permutation (arr : ProcessArr) (arrSize : Nat) :
    List.Sorted (fun a b : Process => a.processId ≤ b.processId)
      (window (sortChildProcessArray arr arrSize) arrSize) ∧
    (window (sortChildProcessArray arr arrSize) arrSize).Perm (window arr arrSize) := by
  obtain ⟨h1, h2, -⟩ := sortChildProcessArray_spec arr arrSize
  exact ⟨(ascending_iff_sorted _ _).1 h1, by simpa using h2⟩

/-- C3: for every wait status `s`, `checkIfTermSuccess(s)` returns `0` exactly when the low
7 bits of `s` are zero (normal termination) and the bits 8..15 (the exit code) are zero; it
returns `-1` for every other status, and never any other value. -/
theorem checkIfTermSuccess_classification (s : Int) :
    (checkIfTermSuccess s = 0 ↔ (s % 128 = 0 ∧ (s / 256) % 256 = 0)) ∧
    (¬ (s % 128 = 0 ∧ (s / 256) % 256 = 0) → checkIfTermSuccess s = -1) ∧
    (checkIfTermSuccess s = 0 ∨ checkIfTermSuccess s = -1) := by
  unfold checkIfTermSuccess WIFEXITED WEXITSTATUS
  rw [land_0x7f, land_0xff00_shiftRight]
  by_cases h1 : s % 128 = 0
  · by_cases h2 : (s / 256) % 256 = 0
    · simp [h1, h2]
    · simp [h1, h2]
  · simp [h1]

/-- C9: index building is deterministic and idempotent: for launched records with pairwise
distinct pids, `sortChildProcessArray` gives the same sequence for any two arrangements of
the records, and applied to its own output it changes nothing. -/
theorem sortChildProcessArray_deterministic_idempotent (arr1 arr2 : ProcessArr) (K : Nat)
    (hperm : (window arr1 K).Perm (window arr2 K))
    (hdistinct : ((window arr1 K).map Process.processId).Nodup) :
    window (sortChildProcessArray arr1 K) K = window (sortChildProcessArray arr2 K) K ∧
    sortChildProcessArray (sortChildProcessArray arr1 K) K = sortChildProcessArray arr1 K := by
  obtain ⟨a1, a2, -⟩ := sortChildProcessArray_spec arr1 K
  obtain ⟨b1, b2, -⟩ := sortChildProcessArray_spec arr2 K
  rw [Int.toNat_ofNat] at a2 b2
  refine ⟨?_, sortChildProcessArray_of_ascending _ _ a1⟩
  apply sorted_unique _ _ ((a2.trans hperm).trans b2.symm)
  · exact (a2.map _).nodup_iff.2 hdistinct
  · exact (ascending_iff_sorted _ _).1 a1
  · exact (ascending_iff_sorted _ _).1 b1

/-- C1: end-to-end correlation: for every list of command paths and every `K ≥ 1` pairwise
distinct positive pids returned by fork for the first `K` commands, in any numeric order,
after `structArrayInitialise`, `forkAndExecChildProcesses` (which returns `K`) and the
sorting section of `main`, `getCommandPathFromPid(childProcessArr, K, pid_i)` returns the
path of the `i`-th command, for every `i < K`. -/
theorem getCommandPathFromPid_end_to_end (paths : List String) (stack : ProcessArr)
    (fork : Int → Int) (execl : Option String → Bool) (indeterminate : Int) (K : Nat)
    (hK : 1 ≤ K) (hKn : K ≤ paths.length) (hpos : ∀ i : Nat, i < K → 0 < fork i)
    (hdistinct : ∀ i j : Nat, i < K → j < K → fork i = fork j → i = j)
    (hstop : K = paths.length ∨ fork K = -1) (i : Nat) (hi : i < K) :
    (forkAndExecChildProcesses fork execl indeterminate
      (structArrayInitialise paths stack paths.length) paths.length).flow = Flow.returned (K : Int) ∧
    ∃ path, paths[i]? = some path ∧
      getCommandPathFromPid
        (mainSortSection (forkAndExecChildProcesses fork execl indeterminate
          (structArrayInitialise paths stack paths.length) paths.length).childProcessArr K).2
        K (fork i) = some path := by
  obtain ⟨r1, r2, -⟩ := spawned_registry paths stack fork execl indeterminate K hK hKn hpos
    hstop
  refine ⟨r1, paths[i], by simp [List.getElem?_eq_getElem (show i < paths.length by omega)], ?_⟩
  obtain ⟨s1, s2, -⟩ := mainSortSection_spec (forkAndExecChildProcesses fork execl
    indeterminate (structArrayInitialise paths stack paths.length)
    paths.length).childProcessArr K
  rw [Int.toNat_ofNat] at s2
  have hwin : (window (forkAndExecChildProcesses fork execl indeterminate
      (structArrayInitialise paths stack paths.length) paths.length).childProcessArr K).map
        Process.processId = forkResults fork K := by
    unfold window forkResults
    rw [List.map_map]
    apply List.map_congr_left
    intro j hj
    simp only [Function.comp, r2 j (List.mem_range.1 hj)]
  have hnodup : (forkResults fork K).Nodup := by
    unfold forkResults
    apply List.Nodup.map_on _ (List.nodup_range K)
    intro a ha b hb hab
    exact hdistinct a b (List.mem_range.1 ha) (List.mem_range.1 hb) hab
  have hmem := getCommandPathFromPid_of_mem _ K _ s1 s2 (hwin ▸ hnodup) ⟨fork i, paths[i]?⟩
    ((mem_window _ _ _).2 ⟨i, hi, r2 i hi⟩)
  rw [hmem]
  simp [List.getElem?_eq_getElem (show i < paths.length by omega)]

/-- Witness of C9: three records in two arrangements. -/
theorem sortChildProcessArray_deterministic_idempotent_witness :
    window (sortChildProcessArray
        (ofList [⟨30, some "a"⟩, ⟨10, some "b"⟩, ⟨20, some "c"⟩] ⟨0, none⟩) (3 : Nat)) 3
      = window (sortChildProcessArray
        (ofList [⟨20, some "c"⟩, ⟨30, some "a"⟩, ⟨10, some "b"⟩] ⟨0, none⟩) (3 : Nat)) 3 ∧
    sortChildProcessArray (sortChildProcessArray
        (ofList [⟨30, some "a"⟩, ⟨10, some "b"⟩, ⟨20, some "c"⟩] ⟨0, none⟩) (3 : Nat)) (3 : Nat)
      = sortChildProcessArray
        (ofList [⟨30, some "a"⟩, ⟨10, some "b"⟩, ⟨20, some "c"⟩] ⟨0, none⟩) (3 : Nat) :=
  sortChildProcessArray_deterministic_idempotent
    (ofList [⟨30, some "a"⟩, ⟨10, some "b"⟩, ⟨20, some "c"⟩] ⟨0, none⟩)
    (ofList [⟨20, some "c"⟩, ⟨30, some "a"⟩, ⟨10, some "b"⟩] ⟨0, none⟩) 3
    (by decide) (by decide)

/-- Witness of C1: three commands whose pids come back in shuffled order. -/
theorem getCommandPathFromPid_end_to_end_witness :
    (forkAndExecChildProcesses (fun i => [30, 10, 20].getD i.toNat (-1)) (fun _ => true) 7
      (structArrayInitialise ["a", "b", "c"] (fun _ => ⟨0, none⟩)
        (["a", "b", "c"] : List String).length)
      (["a", "b", "c"] : List String).length).flow = Flow.returned ((3 : Nat) : Int) ∧
    ∃ path, (["a", "b", "c"] : List String)[1]? = some path ∧
      getCommandPathFromPid
        (mainSortSection (forkAndExecChildProcesses (fun i => [30, 10, 20].getD i.toNat (-1))
          (fun _ => true) 7
          (structArrayInitialise ["a", "b", "c"] (fun _ => ⟨0, none⟩)
            (["a", "b", "c"] : List String).length)
          (["a", "b", "c"] : List String).length).childProcessArr (3 : Nat)).2
        (3 : Nat) ((fun i : Int => [30, 10, 20].getD i.toNat (-1)) (1 : Nat)) = some path :=
  getCommandPathFromPid_end_to_end ["a", "b", "c"] (fun _ => ⟨0, none⟩)
    (fun i => [30, 10, 20].getD i.toNat (-1)) (fun _ => true) 7 3 (by decide) (by decide)
    (by intro i hi; interval_cases i <;> decide)
    (by intro i j hi hj; interval_cases i <;> interval_cases j <;> decide)
    (Or.inl rfl) 1 (by decide)

/-- C4: spawner post-condition in the parent: for every non-empty record array of size `n`
and every sequence of fork results (each `-1` or a pid), `forkAndExecChildProcesses` returns
`K`, the number of successful forks that precede the first failing fork (`n` if none
fails); `K ≤ n`; for `i < K` the record `i` holds the `i`-th fork result; the records from
`K` on are untouched; no `commandPathPtr` is changed. -/
theorem forkAndExecChildProcesses_postcondition (fork : Int → Int)
    (execl : Option String → Bool) (indeterminate : Int) (arr : ProcessArr) (n : Nat)
    (hn : 1 ≤ n) (hparent : ∀ i : Nat, i < n → fork i = -1 ∨ 0 < fork i) :
    (forkAndExecChildProcesses fork execl indeterminate arr n).flow
      = Flow.returned (launchedBeforeFailure (forkResults fork n) : Int) ∧
    launchedBeforeFailure (forkResults fork n) ≤ n ∧
    (∀ i : Nat, i < launchedBeforeFailure (forkResults fork n) →
      ((forkAndExecChildProcesses fork execl indeterminate arr n).childProcessArr i).processId
        = fork i) ∧
    (∀ i : Int, (launchedBeforeFailure (forkResults fork n) : Int) ≤ i →
      (forkAndExecChildProcesses fork execl indeterminate arr n).childProcessArr i = arr i) ∧
    (∀ i : Int,
      ((forkAndExecChildProcesses fork execl indeterminate arr n).childProcessArr i).commandPathPtr
        = (arr i).commandPathPtr) := by
  have hall : ∀ r ∈ forkResults fork n, r = -1 ∨ 0 < r := by
    intro r hr
    unfold forkResults at hr
    obtain ⟨i, hi, rfl⟩ := List.mem_map.1 hr
    exact hparent i (List.mem_range.1 hi)
  obtain ⟨k1, k2, k3⟩ := launchedBeforeFailure_spec (forkResults fork n) hall
  rw [forkResults_length] at k1 k3
  generalize launchedBeforeFailure (forkResults fork n) = K at k1 k2 k3 ⊢
  have hpos : ∀ i : Int, 0 ≤ i → i < K → 0 < fork i := by
    intro i h0 hi
    obtain ⟨i', rfl⟩ := Int.eq_ofNat_of_zero_le h0
    obtain ⟨v, hv1, hv2⟩ := k2 i' (by omega)
    rw [forkResults_getElem? fork n i' (by omega)] at hv1
    rw [Option.some.inj hv1]
    exact hv2
  have hstop : (K : Int) = n ∨ ((K : Int) < n ∧ fork K = -1) := by
    rcases k3 with e | ⟨e1, e2⟩
    · left; exact_mod_cast e
    · right
      rw [forkResults_getElem? fork n K e1] at e2
      exact ⟨by exact_mod_cast e1, Option.some.inj e2⟩
  obtain ⟨r1, r2, -⟩ := forkAndExecChildProcesses_parent fork execl indeterminate arr n K
    (by omega) (by omega) hstop hpos
  refine ⟨r1, k1, ?_, ?_, ?_⟩
  · intro i hi
    rw [r2, if_pos ⟨by omega, by omega⟩]
  · intro i hi
    rw [r2, if_neg (by omega)]
  · intro i
    rw [r2]
    split_ifs <;> rfl

/-- Witness of C4: three records, the third fork fails. -/
theorem forkAndExecChildProcesses_postcondition_witness :
    (forkAndExecChildProcesses (fun i => [30, 10, -1].getD i.toNat (-1)) (fun _ => true) 7
        (ofList [⟨1, some "a"⟩, ⟨2, some "b"⟩, ⟨3, some "c"⟩] ⟨0, none⟩) (3 : Nat)).flow
      = Flow.returned (launchedBeforeFailure
          (forkResults (fun i => [30, 10, -1].getD i.toNat (-1)) 3) : Int) ∧
    launchedBeforeFailure (forkResults (fun i => [30, 10, -1].getD i.toNat (-1)) 3) = 2 :=
  ⟨(forkAndExecChildProcesses_postcondition (fun i => [30, 10, -1].getD i.toNat (-1))
      (fun _ => true) 7 (ofList [⟨1, some "a"⟩, ⟨2, some "b"⟩, ⟨3, some "c"⟩] ⟨0, none⟩) 3
      (by decide) (by intro i hi; interval_cases i <;> decide)).1, by decide⟩

/-- C5: for every registry of `K` launched records (`K ≥ 1`, and `K = 0` as well) with pairwise distinct pids, prepared
by the sorting section of `main`, and every sequence of termination events in which each
launched pid occurs exactly once, in any order, followed by the return of `wait()` that
tells that no child is left, `displayAllChildTermMsg` emits exactly `K` results, and the
paths in the results are, as a multiset, the launched paths. -/
theorem displayAllChildTermMsg_one_result_per_command (arr : ProcessArr) (K : Nat)
    (hpos : ∀ i : Nat, i < K → 0 < (arr i).processId)
    (hdistinct : ((window arr K).map Process.processId).Nodup) (waits : List (Int × Int))
    (hevents : (waits.map Prod.fst).Perm ((window arr K).map Process.processId)) :
    (results (displayAllChildTermMsg (mainSortSection arr K).2 K waits)).length = K ∧
    ((results (displayAllChildTermMsg (mainSortSection arr K).2 K waits)).map Prod.fst).Perm
      ((window arr K).map Process.commandPathPtr) :=
  ⟨(reaper_results arr K hpos hdistinct waits hevents).1,
    (reaper_results arr K hpos hdistinct waits hevents).2.1⟩

/-- Witness of C5: three launched commands that terminate in an order of their own. -/
theorem displayAllChildTermMsg_one_result_per_command_witness :
    (results (displayAllChildTermMsg
      (mainSortSection (ofList [⟨30, some "a"⟩, ⟨10, some "b"⟩, ⟨20, some "c"⟩] ⟨0, none⟩)
        (3 : Nat)).2 (3 : Nat) [(20, 0), (30, 256), (10, 9)])).length = 3 ∧
    ((results (displayAllChildTermMsg
      (mainSortSection (ofList [⟨30, some "a"⟩, ⟨10, some "b"⟩, ⟨20, some "c"⟩] ⟨0, none⟩)
        (3 : Nat)).2 (3 : Nat) [(20, 0), (30, 256), (10, 9)])).map Prod.fst).Perm
      ((window (ofList [⟨30, some "a"⟩, ⟨10, some "b"⟩, ⟨20, some "c"⟩] ⟨0, none⟩) 3).map
        Process.commandPathPtr) :=
  displayAllChildTermMsg_one_result_per_command
    (ofList [⟨30, some "a"⟩, ⟨10, some "b"⟩, ⟨20, some "c"⟩] ⟨0, none⟩) 3
    (by intro i hi; interval_cases i <;> decide) (by decide) [(20, 0), (30, 256), (10, 9)]
    (by decide)

/-- C6: partial launch: with `n ≥ 2` commands, when process creation first fails on the
`N`-th fork attempt (`2 ≤ N ≤ n`), `main` launches exactly `N-1` children (the fork calls
are the `N-1` successes and the failure), prints the warning with the number `n - (N-1)`,
and finishes with exit status `0`; it still reaps the `N-1` children: when the pids are
distinct and each launched child terminates once, it waits for each of them and once more,
and emits one result per launched command. -/
theorem main_partial_launch (env : Env) (argv : List String) (N : Nat) (hN : 2 ≤ N)
    (hNn : N + 1 ≤ argv.length) (hpos : ∀ i : Nat, i + 1 < N → 0 < env.fork i)
    (hfail : env.fork ((N - 1 : Nat) : Int) = -1) :
    forkCalls (main env argv).1 = forkResults env.fork (N - 1) ++ [-1] ∧
    warnings (main env argv).1 = [((argv.length : Int) - 1) - ((N : Int) - 1)] ∧
    exitStatus (main env argv).2 = some 0 ∧
    ((∀ i j : Nat, i + 1 < N → j + 1 < N → env.fork i = env.fork j → i = j) →
      (env.waits.map Prod.fst).Perm (forkResults env.fork (N - 1)) →
      waitCalls (main env argv).1 = env.waits.map Prod.fst ++ [-1] ∧
      (results (main env argv).1).length = N - 1 ∧
      ((results (main env argv).1).map Prod.fst).Perm
        (((argv.drop 1).take (N - 1)).map some)) := by
  obtain ⟨K, rfl⟩ : ∃ K, N = K + 1 := ⟨N - 1, by omega⟩
  simp only [Nat.add_sub_cancel] at hfail ⊢
  have hposK : ∀ i : Nat, i < K → 0 < env.fork i := fun i hi => hpos i (by omega)
  obtain ⟨o1, o2, o3, -, o5, o6⟩ := main_launched_observations env argv K (by omega)
    (by omega) hposK (Or.inr hfail)
  have hlen : K ≤ (argv.drop 1).length := by rw [List.length_drop]; omega
  obtain ⟨w1, w2⟩ := spawned_window (argv.drop 1) env.stack env.fork env.execl
    env.indeterminate K (by omega) hlen hposK (Or.inr hfail)
  obtain ⟨-, g2, -⟩ := spawned_registry (argv.drop 1) env.stack env.fork env.execl
    env.indeterminate K (by omega) hlen hposK (Or.inr hfail)
  rw [o1, o2, o3, o5, o6, if_pos (by omega), if_pos (by omega)]
  refine ⟨rfl, ?_, rfl, ?_⟩
  · congr 1
    push_cast
    ring
  · intro hdistinct hevents
    obtain ⟨q1, q2, q3⟩ := reaper_results
      (forkAndExecChildProcesses env.fork env.execl env.indeterminate
        (structArrayInitialise (argv.drop 1) env.stack (argv.drop 1).length)
        (argv.drop 1).length).childProcessArr K
      (by intro i hi; rw [g2 i hi]; exact hposK i hi)
      (by rw [w1]; exact forkResults_nodup env.fork K
            (fun i j hi hj => hdistinct i j (by omega) (by omega)))
      env.waits (by rw [w1]; exact hevents)
    refine ⟨q3, q1, ?_⟩
    rw [← w2]
    exact q2

/-- Witness of C6: three commands, the third fork fails. -/
theorem main_partial_launch_witness :
    forkCalls (main sampleEnv sampleArgv).1 = [30, 10, -1] ∧
    warnings (main sampleEnv sampleArgv).1 = [1] ∧
    exitStatus (main sampleEnv sampleArgv).2 = some 0 ∧
    waitCalls (main sampleEnv sampleArgv).1 = [10, 30, -1] ∧
    (results (main sampleEnv sampleArgv).1).length = 2 ∧
    ((results (main sampleEnv sampleArgv).1).map Prod.fst).Perm
      [some "/bin/a", some "/bin/b"] :=
  have h := main_partial_launch sampleEnv sampleArgv 3 (by decide) (by decide)
    (by
      intro i hi
      have hi2 : i < 2 := by omega
      interval_cases i <;> decide)
    (by decide)
  ⟨h.1, h.2.1, h.2.2.1,
    h.2.2.2
      (by
        intro i j hi hj
        have hi2 : i < 2 := by omega
        have hj2 : j < 2 := by omega
        interval_cases i <;> interval_cases j <;> decide)
      (by decide)⟩

/-- C7: total launch failure: for every non-empty list of commands, when the very first
fork fails, `forkAndExecChildProcesses` returns `0` and `main` exits with
`ZERO_CHILD_EXIT_STATUS` (2) without calling `sortChildProcessArray` or
`displayAllChildTermMsg`: there is no `wait()` call and no per-command result. -/
theorem main_total_launch_failure (env : Env) (argv : List String) (hargv : 2 ≤ argv.length)
    (hfail : env.fork 0 = -1) :
    (forkAndExecChildProcesses env.fork env.execl env.indeterminate
      (structArrayInitialise (argv.drop 1) env.stack ((argv.length : Int) - 1))
      ((argv.length : Int) - 1)).flow = Flow.returned 0 ∧
    (main env argv).2 = Flow.exited ZERO_CHILD_EXIT_STATUS ∧
    exitStatus (main env argv).2 = some 2 ∧
    sortCalls (main env argv).1 = [] ∧
    waitCalls (main env argv).1 = [] ∧
    results (main env argv).1 = [] ∧
    forkCalls (main env argv).1 = [-1] := by
  obtain ⟨r1, -, -⟩ := forkAndExecChildProcesses_parent env.fork env.execl env.indeterminate
    (structArrayInitialise (argv.drop 1) env.stack ((argv.length : Int) - 1))
    ((argv.length : Int) - 1) 0 (by omega) (le_refl 0) (Or.inr ⟨by omega, hfail⟩)
    (by intro i h0 hi; omega)
  rw [main_none_launched env argv hargv hfail]
  exact ⟨r1, rfl, rfl, rfl, rfl, rfl, rfl⟩

/-- Witness of C7: three commands, the first fork fails. -/
theorem main_total_launch_failure_witness :
    (forkAndExecChildProcesses failingEnv.fork failingEnv.execl failingEnv.indeterminate
      (structArrayInitialise (sampleArgv.drop 1) failingEnv.stack
        ((sampleArgv.length : Int) - 1))
      ((sampleArgv.length : Int) - 1)).flow = Flow.returned 0 ∧
    (main failingEnv sampleArgv).2 = Flow.exited ZERO_CHILD_EXIT_STATUS ∧
    exitStatus (main failingEnv sampleArgv).2 = some 2 ∧
    sortCalls (main failingEnv sampleArgv).1 = [] ∧
    waitCalls (main failingEnv sampleArgv).1 = [] ∧
    results (main failingEnv sampleArgv).1 = [] ∧
    forkCalls (main failingEnv sampleArgv).1 = [-1] :=
  main_total_launch_failure failingEnv sampleArgv (by decide) rfl

/-- C8: usage error: when `main` is invoked with no command argument (`argc == 1`) it
exits with `NO_ARG_EXIT_STATUS` (1), and no `fork()` call and no `wait()` call is made. -/
theorem main_usage_error (env : Env) (argv : List String) (hargc : argv.length = 1) :
    (main env argv).2 = Flow.exited NO_ARG_EXIT_STATUS ∧
    exitStatus (main env argv).2 = some 1 ∧
    forkCalls (main env argv).1 = [] ∧
    waitCalls (main env argv).1 = [] := by
  have hmain : main env argv
      = ([Event.print Output.noArgumentsError, Event.print (Output.usage argv[0]?)],
        Flow.exited NO_ARG_EXIT_STATUS) := by
    unfold main
    rw [if_pos (by omega)]
  rw [hmain]
  exact ⟨rfl, rfl, rfl, rfl⟩

/-- Witness of C8: the program name alone. -/
theorem main_usage_error_witness :
    (main sampleEnv ["run"]).2 = Flow.exited NO_ARG_EXIT_STATUS ∧
    exitStatus (main sampleEnv ["run"]).2 = some 1 ∧
    forkCalls (main sampleEnv ["run"]).1 = [] ∧
    waitCalls (main sampleEnv ["run"]).1 = [] :=
  main_usage_error sampleEnv ["run"] rfl

/-- C10, counterexample: the pid 7 does not occur in the index, and the reaper neither
stops nor withholds a result: it emits a result with the `NULL` path for that event and
goes on to the event of pid 5. -/
theorem displayAllChildTermMsg_unknown_pid_counterexample :
    7 ∉ (window sampleIndex 1).map Process.processId ∧
    results (displayAllChildTermMsg sampleIndex 1 [(7, 0), (5, 0)])
      = [(none, true), (some "/bin/a", true)] ∧
    waitCalls (displayAllChildTermMsg sampleIndex 1 [(7, 0), (5, 0)]) = [7, 5, -1] := by
  decide

/-- C10, amended: for a termination event whose pid does not occur in the index, the
lookup returns `NULL`; the reaper makes no check: it emits the result of that event with
the `NULL` path, classified by the status, and goes on to process the further events. -/
theorem displayAllChildTermMsg_unknown_pid (arr : ProcessArr) (n : Int)
    (before : List (Int × Int)) (pid status : Int) (after : List (Int × Int))
    (hbefore : ∀ w ∈ before, 0 < w.1) (hpid : 0 < pid)
    (hunknown : ∀ j, 0 ≤ j → j < n → (arr j).processId ≠ pid) :
    getCommandPathFromPid arr n pid = none ∧
    results (displayAllChildTermMsg arr n (before ++ (pid, status) :: after))
      = results (displayAllChildTermMsg arr n before)
        ++ (none, decide (checkIfTermSuccess status = 0))
          :: results (displayAllChildTermMsg arr n after) := by
  have hnone := getCommandPathFromPid_absent arr n pid hunknown
  refine ⟨hnone, ?_⟩
  simp only [results_displayAllChildTermMsg]
  have e1 : receivedEvents (before ++ (pid, status) :: after)
      = before ++ (pid, status) :: receivedEvents after := by
    unfold receivedEvents
    rw [List.takeWhile_append_of_pos (by simpa using hbefore)]
    simp [List.takeWhile_cons, hpid]
  rw [e1, receivedEvents_of_pos before hbefore]
  simp [hnone]

/-- Witness of C10, amended: an unknown pid between two events of the launched child. -/
theorem displayAllChildTermMsg_unknown_pid_witness :
    getCommandPathFromPid sampleIndex 1 7 = none ∧
    results (displayAllChildTermMsg sampleIndex 1 ([(5, 256)] ++ (7, 0) :: [(5, 0)]))
      = results (displayAllChildTermMsg sampleIndex 1 [(5, 256)])
        ++ (none, decide (checkIfTermSuccess 0 = 0))
          :: results (displayAllChildTermMsg sampleIndex 1 [(5, 0)]) :=
  displayAllChildTermMsg_unknown_pid sampleIndex 1 [(5, 256)] 7 0 [(5, 0)] (by decide)
    (by decide) (by intro j h0 h1; have : j = 0 := by omega
                    subst this; decide)

/-! ## Further lemmas -/

/-- The classification of a status, arithmetically. -/
theorem checkIfTermSuccess_eq (s : Int) :
    checkIfTermSuccess s = if s % 128 = 0 ∧ (s / 256) % 256 = 0 then 0 else -1 := by
  unfold checkIfTermSuccess WIFEXITED WEXITSTATUS
  rw [land_0x7f, land_0xff00_shiftRight]
  by_cases h1 : s % 128 = 0
  · by_cases h2 : (s / 256) % 256 = 0
    · simp [h1, h2]
    · simp [h1, h2]
  · simp [h1]

/-- The results of a sequence of events around one event with a positive pid. -/
theorem results_displayAllChildTermMsg_split (arr : ProcessArr) (n : Int)
    (before : List (Int × Int)) (pid status : Int) (after : List (Int × Int))
    (hbefore : ∀ w ∈ before, 0 < w.1) (hpid : 0 < pid) :
    results (displayAllChildTermMsg arr n (before ++ (pid, status) :: after))
      = results (displayAllChildTermMsg arr n before)
        ++ (getCommandPathFromPid arr n pid, decide (checkIfTermSuccess status = 0))
          :: results (displayAllChildTermMsg arr n after) := by
  simp only [results_displayAllChildTermMsg]
  have e1 : receivedEvents (before ++ (pid, status) :: after)
      = before ++ (pid, status) :: receivedEvents after := by
    unfold receivedEvents
    rw [List.takeWhile_append_of_pos (by simpa using hbefore)]
    simp [List.takeWhile_cons, hpid]
  rw [e1, receivedEvents_of_pos before hbefore]
  simp

/-- The calls of `fork()` the spawner makes in the parent. -/
theorem forkCalls_forkAndExecChildProcesses (fork : Int → Int) (execl : Option String → Bool)
    (indeterminate : Int) (arr : ProcessArr) (n K : Nat) (hn : 1 ≤ n) (hKn : K ≤ n)
    (hstop : K = n ∨ fork K = -1) (hpos : ∀ i : Nat, i < K → 0 < fork i) :
    forkCalls (forkAndExecChildProcesses fork execl indeterminate arr n).trace
      = forkResults fork (if K < n then K + 1 else n) := by
  have hstop2 : (K : Int) = n ∨ ((K : Int) < n ∧ fork K = -1) := by
    rcases hstop with h | h
    · left; exact_mod_cast h
    · by_cases e : K = n
      · left; exact_mod_cast e
      · right; exact ⟨by omega, h⟩
  obtain ⟨-, -, r3⟩ := forkAndExecChildProcesses_parent fork execl indeterminate arr n K
    (by omega) (by omega) hstop2 (by
      intro i h0 hi
      obtain ⟨i', rfl⟩ := Int.eq_ofNat_of_zero_le h0
      exact hpos i' (by omega))
  rw [r3, Int.toNat_ofNat, map_fork_events, forkCalls_append,
    (extract_forkEvents (forkResults fork K)).1]
  by_cases hlt : K < n
  · have hf : fork K = -1 := by
      rcases hstop with h | h
      · omega
      · exact h
    rw [if_pos (by exact_mod_cast hlt), if_pos hlt]
    simp [forkCalls, forkResults, List.range_succ, hf]
  · have e : K = n := by omega
    rw [if_neg (by omega), if_neg hlt, e]
    simp [forkCalls]

/-- Inserting an element in front of elements that a filter rejects is, for the filter,
the same as appending it. -/
theorem filter_insertIdx (f : Process → Bool) (x : Process) :
    ∀ (c : Nat) (w : List Process), c ≤ w.length →
      (f x = true → ∀ y ∈ w.drop c, f y = false) →
      (w.insertIdx c x).filter f = (w ++ [x]).filter f := by
  intro c
  induction c with
  | zero =>
    intro w _ h
    rw [List.insertIdx_zero, List.filter_append]
    by_cases hx : f x = true
    · have hw : w.filter f = [] := by
        rw [List.filter_eq_nil_iff]
        intro y hy
        simpa using h hx y (by simpa using hy)
      simp [List.filter_cons, hx, hw]
    · simp [List.filter_cons, hx]
  | succ c ih =>
    intro w hc h
    cases w with
    | nil => simp at hc
    | cons y w =>
      rw [List.insertIdx_succ_cons, List.cons_append, List.filter_cons, List.filter_cons,
        ih w (by simpa using hc) (by simpa using h)]

/-- A filter sees the same on two windows extended over indices on which the arrays
agree. -/
theorem window_filter_extend (f : Process → Bool) (a b : ProcessArr) (m : Nat)
    (hp : (window a m).filter f = (window b m).filter f) :
    ∀ n : Nat, m ≤ n → (∀ i : Nat, m ≤ i → i < n → a (i : Int) = b (i : Int)) →
      (window a n).filter f = (window b n).filter f := by
  intro n hmn
  induction n, hmn using Nat.le_induction with
  | base => intro _; exact hp
  | succ n hmn ih =>
    intro hag
    rw [window_succ, window_succ, hag n hmn (Nat.lt_succ_self n), List.filter_append,
      List.filter_append, ih (fun i h1 h2 => hag i h1 (Nat.lt_succ_of_lt h2))]

/-- One pass of the outer loop keeps, for every pid, the records with that pid in the
order they had. -/
theorem sortInsertStep_stable (arr : ProcessArr) (k : Int) (hk : 0 ≤ k) (n : Nat)
    (hn : k < n) (pid : Int) :
    (window (sortInsertStep arr k) n).filter (fun r => decide (r.processId = pid))
      = (window arr n).filter (fun r => decide (r.processId = pid)) := by
  obtain ⟨c, hc0, hck, heq, -, hgt⟩ := sortInsertStep_spec arr k hk
  obtain ⟨k', rfl⟩ := Int.eq_ofNat_of_zero_le hk
  obtain ⟨c', rfl⟩ := Int.eq_ofNat_of_zero_le hc0
  rw [heq]
  apply window_filter_extend _ _ _ (k' + 1) _ n (by omega)
  · intro i hi _
    exact insertedAt_frame arr _ _ _ hc0 hck (Or.inr (by omega))
  · rw [window_insertedAt arr k' c' (by omega), window_succ]
    apply filter_insertIdx _ _ _ _ (by rw [window_length]; omega)
    intro hx y hy
    obtain ⟨j, hj, rfl⟩ := List.getElem_of_mem hy
    rw [List.length_drop, window_length] at hj
    rw [List.getElem_drop, window_getElem]
    have := hgt ((c' + j : Nat) : Int) (by omega) (by omega)
    have hxe : (arr (k' : Int)).processId = pid := by simpa using hx
    simp only [decide_eq_false_iff_not]
    omega

theorem sortOuterLoop_stable (n : Int) (pid : Int) :
    ∀ (bound : Nat) (arr : ProcessArr) (k : Int) (h : n - k ≤ bound), 1 ≤ k →
      (window (sortOuterLoop n bound arr k h) n.toNat).filter
          (fun r => decide (r.processId = pid))
        = (window arr n.toNat).filter (fun r => decide (r.processId = pid)) := by
  intro bound
  induction bound with
  | zero => intro arr k h _; rfl
  | succ bound ih =>
    intro arr k h h1
    simp only [sortOuterLoop]
    split_ifs with hlt
    · rw [ih (sortInsertStep arr k) (k + 1) (by omega) (by omega)]
      exact sortInsertStep_stable arr k (by omega) n.toNat (by omega) pid
    · rfl

/-- The sort keeps, for every pid, the records with that pid in the order they had. -/
theorem sortChildProcessArray_filter (arr : ProcessArr) (n : Int) (pid : Int) :
    (window (sortChildProcessArray arr n) n.toNat).filter
        (fun r => decide (r.processId = pid))
      = (window arr n.toNat).filter (fun r => decide (r.processId = pid)) :=
  sortOuterLoop_stable n pid _ arr 1 _ (le_refl 1)

/-- Whatever `fork()` returns, the spawner makes no call of `wait()` and no call of the
sort. -/
theorem forkAndExecLoop_quiet (fork : Int → Int) (execl : Option String → Bool) (n : Int) :
    ∀ (bound : Nat) (arr : ProcessArr) (idx num : Int) (h : n - idx ≤ bound),
      waitCalls (forkAndExecLoop fork execl n bound arr idx num h).trace = [] ∧
      sortCalls (forkAndExecLoop fork execl n bound arr idx num h).trace = [] := by
  intro bound
  induction bound with
  | zero => intro arr idx num h; exact ⟨rfl, rfl⟩
  | succ bound ih =>
    intro arr idx num h
    simp only [forkAndExecLoop]
    split_ifs
    · exact ⟨rfl, rfl⟩
    · obtain ⟨i1, i2⟩ := ih (writeProcessId arr idx (fork idx)) (idx + 1) (idx + 1) (by omega)
      exact ⟨by simpa [waitCalls] using i1, by simpa [sortCalls] using i2⟩
    · exact ⟨rfl, rfl⟩
    · exact ⟨rfl, rfl⟩
    · exact ⟨rfl, rfl⟩

theorem waitCalls_displayAllChildTermMsg_ne_nil (arr : ProcessArr) (n : Int)
    (waits : List (Int × Int)) : waitCalls (displayAllChildTermMsg arr n waits) ≠ [] := by
  cases waits with
  | nil => simp [displayAllChildTermMsg, waitCalls]
  | cons w waits =>
    obtain ⟨pid, st⟩ := w
    by_cases hp : 0 < pid
    · by_cases hs : checkIfTermSuccess st = 0
      · simp [displayAllChildTermMsg, waitCalls, hp, hs]
      · simp [displayAllChildTermMsg, waitCalls, hp, hs]
    · simp [displayAllChildTermMsg, waitCalls, hp]

/-! ## Lemmas on the traced loops -/

/-- The traced inner loop computes what the inner loop computes. -/
theorem sortShiftLoopTraced_fst (t : Int) :
    ∀ (bound : Nat) (arr : ProcessArr) (ci cp : Int) (h : ci + 1 ≤ bound),
      (sortShiftLoopTraced t bound arr ci cp h).1 = sortShiftLoop t bound arr ci cp h := by
  intro bound
  induction bound with
  | zero => intro arr ci cp h; rfl
  | succ bound ih =>
    intro arr ci cp h
    simp only [sortShiftLoopTraced, sortShiftLoop]
    split_ifs
    · exact ih _ _ _ _
    · rfl

theorem sortInsertStepTraced_fst (arr : ProcessArr) (k : Int) :
    (sortInsertStepTraced arr k).1 = sortInsertStep arr k := by
  unfold sortInsertStepTraced sortInsertStep
  simp only [sortShiftLoopTraced_fst]

theorem sortOuterLoopTraced_fst (n : Int) :
    ∀ (bound : Nat) (arr : ProcessArr) (k : Int) (h : n - k ≤ bound),
      (sortOuterLoopTraced n bound arr k h).1 = sortOuterLoop n bound arr k h := by
  intro bound
  induction bound with
  | zero => intro arr k h; rfl
  | succ bound ih =>
    intro arr k h
    simp only [sortOuterLoopTraced, sortOuterLoop]
    split_ifs
    · rw [ih]
      simp only [sortInsertStepTraced_fst]
    · rfl

/-- The traced sort computes what `sortChildProcessArray` computes. -/
theorem sortChildProcessArrayTraced_fst (arr : ProcessArr) (n : Int) :
    (sortChildProcessArrayTraced arr n).1 = sortChildProcessArray arr n :=
  sortOuterLoopTraced_fst n _ arr 1 _

/-- The accesses of the inner loop started below index `k`: reads from `-1` on, writes
from `0` on, all of them up to `k`. -/
theorem sortShiftLoopTraced_accesses (t : Int) (k : Int) :
    ∀ (bound : Nat) (arr : ProcessArr) (ci cp : Int) (h : ci + 1 ≤ bound), ci < k →
      (-1 ≤ (sortShiftLoopTraced t bound arr ci cp h).1.2 ∨
        (sortShiftLoopTraced t bound arr ci cp h).1.2 = ci) ∧
      (sortShiftLoopTraced t bound arr ci cp h).1.2 ≤ ci ∧
      ∀ a ∈ (sortShiftLoopTraced t bound arr ci cp h).2,
        (∃ i, a = Access.read i ∧ -1 ≤ i ∧ i < k) ∨ (∃ i, a = Access.write i ∧ 0 ≤ i ∧ i ≤ k) := by
  intro bound
  induction bound with
  | zero =>
    intro arr ci cp h hk
    simp [sortShiftLoopTraced]
  | succ bound ih =>
    intro arr ci cp h hk
    simp only [sortShiftLoopTraced]
    split_ifs with hc
    · obtain ⟨i1, i2, i3⟩ := ih (writeAt arr (ci + 1) (arr ci)) (ci - 1)
        ((writeAt arr (ci + 1) (arr ci)) (ci - 1)).processId (by omega) (by omega)
      dsimp only
      refine ⟨?_, by omega, ?_⟩
      · left
        rcases i1 with i1 | i1
        · exact i1
        · rw [i1]; omega
      · intro a ha
        simp only [List.mem_cons] at ha
        rcases ha with ha | ha | ha | ha
        · exact Or.inl ⟨ci, ha, by omega, hk⟩
        · exact Or.inr ⟨ci + 1, ha, by omega, by omega⟩
        · exact Or.inl ⟨ci - 1, ha, by omega, by omega⟩
        · rcases i3 a ha with ⟨i, hi1, hi2, hi3⟩ | ⟨i, hi1, hi2, hi3⟩
          · exact Or.inl ⟨i, hi1, hi2, by omega⟩
          · exact Or.inr ⟨i, hi1, hi2, by omega⟩
    · simp

/-- What the sort accesses: every write is at an index of the array, every read is at an
index of the array or at the index `-1`. -/
theorem sortOuterLoopTraced_accesses (n : Int) :
    ∀ (bound : Nat) (arr : ProcessArr) (k : Int) (h : n - k ≤ bound), 1 ≤ k →
      ∀ a ∈ (sortOuterLoopTraced n bound arr k h).2,
        (∃ i, a = Access.read i ∧ -1 ≤ i ∧ i < n) ∨ (∃ i, a = Access.write i ∧ 0 ≤ i ∧ i < n) := by
  intro bound
  induction bound with
  | zero => intro arr k h _ a ha; simp [sortOuterLoopTraced] at ha
  | succ bound ih =>
    intro arr k h hk a ha
    simp only [sortOuterLoopTraced] at ha
    split_ifs at ha with hlt
    · simp only [List.mem_append] at ha
      rcases ha with ha | ha
      · obtain ⟨j1, j2, j3⟩ := sortShiftLoopTraced_accesses (arr k).processId k k.toNat arr
          (k - 1) (arr (k - 1)).processId (by omega) (by omega)
        unfold sortInsertStepTraced at ha
        simp only [List.mem_cons, List.mem_append, List.not_mem_nil, or_false] at ha
        rcases ha with (ha | ha | ha) | ha
        · exact Or.inl ⟨k, ha, by omega, hlt⟩
        · exact Or.inl ⟨k - 1, ha, by omega, by omega⟩
        · rcases j3 a ha with ⟨i, hi1, hi2, hi3⟩ | ⟨i, hi1, hi2, hi3⟩
          · exact Or.inl ⟨i, hi1, hi2, by omega⟩
          · exact Or.inr ⟨i, hi1, hi2, by omega⟩
        · refine Or.inr ⟨_, ha, ?_, ?_⟩
          · rcases j1 with j1 | j1
            · omega
            · rw [j1]; omega
          · omega
      · exact ih _ _ _ (by omega) a ha
    · simp at ha

/-- The traced search loop computes what the search loop computes; it reads inside the
array, and the distance of the bounds shrinks from each iteration to every later one. -/
theorem getCommandPathLoopTraced_spec (arr : ProcessArr) (t n : Int) :
    ∀ (bound : Nat) (s e : Int) (h : e + 1 - s ≤ bound), 0 ≤ s → e < n →
      (getCommandPathLoopTraced arr t bound s e h).1 = getCommandPathLoop arr t bound s e h ∧
      (∀ it ∈ (getCommandPathLoopTraced arr t bound s e h).2,
        0 ≤ it.middleIndex ∧ it.middleIndex < n ∧
        it.endIndex - it.startIndex ≤ e - s ∧ 0 ≤ it.endIndex - it.startIndex) ∧
      (getCommandPathLoopTraced arr t bound s e h).2.Pairwise
        (fun a b => b.endIndex - b.startIndex < a.endIndex - a.startIndex) ∧
      ((getCommandPathLoopTraced arr t bound s e h).2.length : Int) ≤ max (e + 1 - s) 0 := by
  intro bound
  induction bound with
  | zero =>
    intro s e h _ _
    simp [getCommandPathLoopTraced, getCommandPathLoop]
  | succ bound ih =>
    intro s e h hs he
    simp only [getCommandPathLoopTraced, getCommandPathLoop]
    by_cases hloop : s ≤ e
    · rw [dif_pos hloop, dif_pos hloop]
      by_cases heq : (arr (s + (e - s) / 2)).processId = t
      · rw [if_pos heq, if_pos heq]
        refine ⟨rfl, ?_, by simp, ?_⟩
        · intro it hit
          simp only [List.mem_singleton] at hit
          subst hit
          simp only
          omega
        · simp only [List.length_singleton]
          omega
      · rw [if_neg heq, if_neg heq]
        by_cases hlt : (arr (s + (e - s) / 2)).processId < t
        · rw [if_pos hlt, if_pos hlt]
          obtain ⟨i1, i2, i3, i4⟩ := ih (s + (e - s) / 2 + 1) e (by omega) (by omega) he
          refine ⟨i1, ?_, ?_, ?_⟩
          · intro it hit
            simp only [List.mem_cons] at hit
            rcases hit with hit | hit
            · subst hit
              simp only
              omega
            · obtain ⟨a, b, c, d⟩ := i2 it hit
              exact ⟨a, b, by omega, d⟩
          · rw [List.pairwise_cons]
            refine ⟨?_, i3⟩
            intro it hit
            obtain ⟨a, b, c, d⟩ := i2 it hit
            simp only
            omega
          · simp only [List.length_cons]
            push_cast
            omega
        · rw [if_neg hlt, if_neg hlt]
          obtain ⟨i1, i2, i3, i4⟩ := ih s (s + (e - s) / 2 - 1) (by omega) hs (by omega)
          refine ⟨i1, ?_, ?_, ?_⟩
          · intro it hit
            simp only [List.mem_cons] at hit
            rcases hit with hit | hit
            · subst hit
              simp only
              omega
            · obtain ⟨a, b, c, d⟩ := i2 it hit
              exact ⟨a, b, by omega, d⟩
          · rw [List.pairwise_cons]
            refine ⟨?_, i3⟩
            intro it hit
            obtain ⟨a, b, c, d⟩ := i2 it hit
            simp only
            omega
          · simp only [List.length_cons]
            push_cast
            omega
    · rw [dif_neg hloop, dif_neg hloop]
      simp

/-- What `sortChildProcessArray` accesses: every write is at an index of the array, every
read is at an index of the array or at the index `-1`. -/
theorem sortChildProcessArrayTraced_accesses (arr : ProcessArr) (n : Int) :
    ∀ a ∈ (sortChildProcessArrayTraced arr n).2,
      (∃ i, a = Access.read i ∧ -1 ≤ i ∧ i < n) ∨ (∃ i, a = Access.write i ∧ 0 ≤ i ∧ i < n) :=
  sortOuterLoopTraced_accesses n _ arr 1 _ (le_refl 1)

/-! ## The claims, continued -/

/-- C11: image-replacement failure is reported as an ordinary failure: the status of a
child that terminates normally with `EXEC_FAILED_EXIT_STATUS` (3), that is `3 * 256`, is
classified by `checkIfTermSuccess` as `-1`, the result it gives for every normal
termination with a nonzero exit code, and the result emitted for the event names the path
of that child. -/
theorem exec_failure_reported_as_failure (arr : ProcessArr) (K : Nat)
    (hpos : ∀ i : Nat, i < K → 0 < (arr i).processId)
    (hdistinct : ((window arr K).map Process.processId).Nodup) (i : Nat) (hi : i < K)
    (before after : List (Int × Int)) (hbefore : ∀ w ∈ before, 0 < w.1) :
    checkIfTermSuccess (EXEC_FAILED_EXIT_STATUS * 256) = -1 ∧
    (∀ code : Int, 1 ≤ code → code ≤ 255 → checkIfTermSuccess (code * 256) = -1) ∧
    results (displayAllChildTermMsg (mainSortSection arr K).2 K
        (before ++ ((arr i).processId, EXEC_FAILED_EXIT_STATUS * 256) :: after))
      = results (displayAllChildTermMsg (mainSortSection arr K).2 K before)
        ++ ((arr i).commandPathPtr, false)
          :: results (displayAllChildTermMsg (mainSortSection arr K).2 K after) := by
  have hcode : ∀ code : Int, 1 ≤ code → code ≤ 255 → checkIfTermSuccess (code * 256) = -1 := by
    intro code h1 h2
    rw [checkIfTermSuccess_eq, if_neg]
    intro h
    omega
  have h3 : checkIfTermSuccess (EXEC_FAILED_EXIT_STATUS * 256) = -1 :=
    hcode 3 (by decide) (by decide)
  refine ⟨h3, hcode, ?_⟩
  obtain ⟨s1, s2, -⟩ := mainSortSection_spec arr K
  rw [Int.toNat_ofNat] at s2
  have hlook := getCommandPathFromPid_of_mem _ K _ s1 s2 hdistinct (arr i)
    ((mem_window arr K _).2 ⟨i, hi, rfl⟩)
  rw [results_displayAllChildTermMsg_split _ _ before _ _ after hbefore (hpos i hi), hlook, h3]
  rfl

/-- Witness of C11: the second of three children could not execute its command. -/
theorem exec_failure_reported_as_failure_witness :
    results (displayAllChildTermMsg
        (mainSortSection (ofList [⟨30, some "a"⟩, ⟨10, some "b"⟩, ⟨20, some "c"⟩] ⟨0, none⟩)
          (3 : Nat)).2 (3 : Nat) ([(20, 0)] ++ (10, 768) :: [(30, 0)]))
      = [(some "c", true), (some "b", false), (some "a", true)] :=
  (exec_failure_reported_as_failure
    (ofList [⟨30, some "a"⟩, ⟨10, some "b"⟩, ⟨20, some "c"⟩] ⟨0, none⟩) 3
    (by intro i hi; interval_cases i <;> decide) (by decide) 1 (by decide)
    [(20, 0)] [(30, 0)] (by decide)).2.2

/-- C12: for every registry and every sequence of values returned by `wait()`,
`displayAllChildTermMsg` emits exactly one result for each event received before the first
non-positive return of `wait()`, in the order of arrival, and none after it; the `i`-th
result carries the path `getCommandPathFromPid` returns for the pid of the `i`-th event and
says "completed successfully" if and only if `checkIfTermSuccess` of its status is `0`. -/
theorem displayAllChildTermMsg_results_in_termination_order (arr : ProcessArr) (arrSize : Int)
    (waits : List (Int × Int)) :
    results (displayAllChildTermMsg arr arrSize waits)
      = (waits.takeWhile (fun w => 0 < w.1)).map
          (fun w => (getCommandPathFromPid arr arrSize w.1,
            decide (checkIfTermSuccess w.2 = 0))) :=
  results_displayAllChildTermMsg arr arrSize waits

/-- C13: fail-fast spawning: in the parent, `forkAndExecChildProcesses` returns the count
`K` of the forks that succeed before the first failure and calls `fork()` for the indices
up to the failing one only: `K + 1` calls when some fork fails, `n` calls when none does,
so no record after the failing index is put to a fork. -/
theorem forkAndExecChildProcesses_fail_fast (fork : Int → Int) (execl : Option String → Bool)
    (indeterminate : Int) (arr : ProcessArr) (n : Nat) (hn : 1 ≤ n)
    (hparent : ∀ i : Nat, i < n → fork i = -1 ∨ 0 < fork i) :
    (forkAndExecChildProcesses fork execl indeterminate arr n).flow
      = Flow.returned (launchedBeforeFailure (forkResults fork n) : Int) ∧
    forkCalls (forkAndExecChildProcesses fork execl indeterminate arr n).trace
      = forkResults fork
          (if -1 ∈ forkResults fork n then launchedBeforeFailure (forkResults fork n) + 1
            else n) ∧
    (forkCalls (forkAndExecChildProcesses fork execl indeterminate arr n).trace).length
      = (if -1 ∈ forkResults fork n then launchedBeforeFailure (forkResults fork n) + 1
          else n) := by
  have hall : ∀ r ∈ forkResults fork n, r = -1 ∨ 0 < r := by
    intro r hr
    unfold forkResults at hr
    obtain ⟨i, hi, rfl⟩ := List.mem_map.1 hr
    exact hparent i (List.mem_range.1 hi)
  obtain ⟨k1, k2, k3⟩ := launchedBeforeFailure_spec (forkResults fork n) hall
  rw [forkResults_length] at k1 k3
  have hmem : -1 ∈ forkResults fork n ↔ launchedBeforeFailure (forkResults fork n) < n := by
    constructor
    · intro hm
      by_contra hc
      obtain ⟨i, hi, hie⟩ := List.mem_map.1 hm
      have hi' := List.mem_range.1 hi
      obtain ⟨v, hv1, hv2⟩ := k2 i (by omega)
      rw [forkResults_getElem? fork n i hi'] at hv1
      have := Option.some.inj hv1
      omega
    · intro hlt
      rcases k3 with e | ⟨_, e2⟩
      · omega
      · exact List.getElem?_mem e2
  generalize launchedBeforeFailure (forkResults fork n) = K at k1 k2 k3 hmem ⊢
  have hpos : ∀ i : Nat, i < K → 0 < fork i := by
    intro i hi
    obtain ⟨v, hv1, hv2⟩ := k2 i hi
    rw [forkResults_getElem? fork n i (by omega)] at hv1
    rw [Option.some.inj hv1]
    exact hv2
  have hstop : K = n ∨ fork K = -1 := by
    rcases k3 with e | ⟨e1, e2⟩
    · left; exact e
    · right
      rw [forkResults_getElem? fork n K e1] at e2
      exact Option.some.inj e2
  have hstop2 : (K : Int) = n ∨ ((K : Int) < n ∧ fork K = -1) := by
    rcases hstop with h | h
    · left; exact_mod_cast h
    · by_cases e : K = n
      · left; exact_mod_cast e
      · right; exact ⟨by omega, h⟩
  obtain ⟨r1, -, -⟩ := forkAndExecChildProcesses_parent fork execl indeterminate arr n K
    (by omega) (by omega) hstop2 (by
      intro i h0 hi
      obtain ⟨i', rfl⟩ := Int.eq_ofNat_of_zero_le h0
      exact hpos i' (by omega))
  have hcalls := forkCalls_forkAndExecChildProcesses fork execl indeterminate arr n K hn k1
    hstop hpos
  have hif : (if -1 ∈ forkResults fork n then K + 1 else n) = (if K < n then K + 1 else n) := by
    by_cases h : K < n
    · rw [if_pos (hmem.2 h), if_pos h]
    · rw [if_neg (fun hm => h (hmem.1 hm)), if_neg h]
  rw [hif, hcalls, forkResults_length]
  exact ⟨r1, rfl, rfl⟩

/-- Witness of C13: four records, the third fork fails, the fourth is never tried. -/
theorem forkAndExecChildProcesses_fail_fast_witness :
    forkCalls (forkAndExecChildProcesses (fun i => [30, 10, -1, 40].getD i.toNat (-1))
      (fun _ => true) 7 (fun _ => ⟨0, none⟩) (4 : Nat)).trace = [30, 10, -1] :=
  (forkAndExecChildProcesses_fail_fast (fun i => [30, 10, -1, 40].getD i.toNat (-1))
    (fun _ => true) 7 (fun _ => ⟨0, none⟩) 4 (by decide)
    (by intro i hi; interval_cases i <;> decide)).2.1

/-- C14: stability: for every record array, also when several records share a
`processId`, `sortChildProcessArray` keeps the records with equal `processId` in their
original relative order: for every pid, the records with that pid come in the result in
the sequence they had in the input. -/
theorem sortChildProcessArray_stable (arr : ProcessArr) (arrSize : Nat) (pid : Int) :
    (window (sortChildProcessArray arr arrSize) arrSize).filter
        (fun r => decide (r.processId = pid))
      = (window arr arrSize).filter (fun r => decide (r.processId = pid)) := by
  simpa using sortChildProcessArray_filter arr arrSize pid

/-- C15: launched-prefix invariant, a handle being unset while the `processId` is not a
pid (not positive): when the memory of the array holds no pid at the start, no record
holds a handle after `structArrayInitialise`; after `forkAndExecChildProcesses`, which
returns `K`, and after the sorting section on the first `K` records, the records that hold
a handle are exactly those at the positions `0 .. K-1`; and `sortChildProcessArray(arr, K)`
leaves every record at a position `≥ K` unchanged. -/
theorem launched_prefix_invariant (paths : List String) (stack : ProcessArr)
    (fork : Int → Int) (execl : Option String → Bool) (indeterminate : Int) (K : Nat)
    (hpaths : 1 ≤ paths.length) (hKn : K ≤ paths.length)
    (hpos : ∀ i : Nat, i < K → 0 < fork i) (hstop : K = paths.length ∨ fork K = -1)
    (hunset : ∀ j, (stack j).processId ≤ 0) :
    (∀ j, ¬ 0 < (structArrayInitialise paths stack paths.length j).processId) ∧
    (forkAndExecChildProcesses fork execl indeterminate
      (structArrayInitialise paths stack paths.length) paths.length).flow
        = Flow.returned (K : Int) ∧
    (∀ j, 0 < ((forkAndExecChildProcesses fork execl indeterminate
        (structArrayInitialise paths stack paths.length) paths.length).childProcessArr
          j).processId ↔ (0 ≤ j ∧ j < K)) ∧
    (∀ j, 0 < ((mainSortSection (forkAndExecChildProcesses fork execl indeterminate
        (structArrayInitialise paths stack paths.length) paths.length).childProcessArr K).2
          j).processId ↔ (0 ≤ j ∧ j < K)) ∧
    (∀ (arr : ProcessArr) (j : Int), (K : Int) ≤ j → sortChildProcessArray arr K j = arr j) := by
  have hstop2 : (K : Int) = paths.length ∨ ((K : Int) < paths.length ∧ fork K = -1) := by
    rcases hstop with h | h
    · left; exact_mod_cast h
    · by_cases e : K = paths.length
      · left; exact_mod_cast e
      · right; exact ⟨by omega, h⟩
  have hinit : ∀ j, (structArrayInitialise paths stack paths.length j).processId
      = (stack j).processId := by
    intro j
    rw [structArrayInitialise_spec]
    split_ifs <;> rfl
  obtain ⟨r1, r2, -⟩ := forkAndExecChildProcesses_parent fork execl indeterminate
    (structArrayInitialise paths stack paths.length) paths.length K (by omega) (by omega)
    hstop2 (by
      intro i h0 hi
      obtain ⟨i', rfl⟩ := Int.eq_ofNat_of_zero_le h0
      exact hpos i' (by omega))
  have hspawn : ∀ j, 0 < ((forkAndExecChildProcesses fork execl indeterminate
      (structArrayInitialise paths stack paths.length) paths.length).childProcessArr
        j).processId ↔ (0 ≤ j ∧ j < K) := by
    intro j
    rw [r2]
    by_cases hj : 0 ≤ j ∧ j < K
    · rw [if_pos hj]
      obtain ⟨j', rfl⟩ := Int.eq_ofNat_of_zero_le hj.1
      simpa [hj] using hpos j' (by omega)
    · rw [if_neg hj, hinit]
      have := hunset j
      constructor
      · intro h; omega
      · intro h; exact absurd h hj
  refine ⟨?_, r1, hspawn, ?_, ?_⟩
  · intro j
    rw [hinit]
    have := hunset j
    omega
  · obtain ⟨-, s2, s3⟩ := mainSortSection_spec (forkAndExecChildProcesses fork execl
      indeterminate (structArrayInitialise paths stack paths.length)
      paths.length).childProcessArr K
    rw [Int.toNat_ofNat] at s2
    intro j
    by_cases hj : 0 ≤ j ∧ j < K
    · obtain ⟨j', rfl⟩ := Int.eq_ofNat_of_zero_le hj.1
      have hmem := s2.subset ((mem_window _ K _).2 ⟨j', by omega, rfl⟩)
      obtain ⟨i, hi, hie⟩ := (mem_window _ K _).1 hmem
      rw [← hie]
      simpa [hj] using (hspawn i).2 ⟨by omega, by omega⟩
    · rw [s3 j (by omega)]
      exact hspawn j
  · intro arr j hj
    exact (sortChildProcessArray_spec arr K).2.2 j (Or.inr hj)

/-- Witness of C15: three commands, two launched with pids in descending order. -/
theorem launched_prefix_invariant_witness :
    (forkAndExecChildProcesses (fun i => [30, 10, -1].getD i.toNat (-1)) (fun _ => true) 7
      (structArrayInitialise ["a", "b", "c"] (fun _ => ⟨0, none⟩)
        (["a", "b", "c"] : List String).length)
      (["a", "b", "c"] : List String).length).flow = Flow.returned ((2 : Nat) : Int) ∧
    (window (mainSortSection (forkAndExecChildProcesses
      (fun i => [30, 10, -1].getD i.toNat (-1)) (fun _ => true) 7
      (structArrayInitialise ["a", "b", "c"] (fun _ => ⟨0, none⟩) 3) 3).childProcessArr 2).2
        3).map Process.processId = [10, 30, 0] :=
  ⟨(launched_prefix_invariant ["a", "b", "c"] (fun _ => ⟨0, none⟩)
      (fun i => [30, 10, -1].getD i.toNat (-1)) (fun _ => true) 7 2 (by decide) (by decide)
      (by intro i hi; interval_cases i <;> decide) (Or.inr (by decide))
      (fun _ => le_refl (0 : Int))).2.1, by decide⟩

/-- C16: phase ordering in `main`: every run is a spawning phase, a sorting phase and a
reaping phase, in this order; every call of `fork()` is in the first, which has no call of
the sort and no call of `wait()`; the sort is called at most once, and only with a count of
launched children above one; every call of `wait()` is in the last phase, which is, when
it takes place, `displayAllChildTermMsg` on the registry as the sorting section left it,
followed by the sign-off line; during reaping the registry is only read: the lookup of
every event received, the first as the last, is made in the registry as the sorting
section left it. -/
theorem main_phase_order (env : Env) (argv : List String) :
    ∃ spawning sorting reaping : List Event,
      (main env argv).1 = spawning ++ sorting ++ reaping ∧
      waitCalls spawning = [] ∧ sortCalls spawning = [] ∧
      forkCalls sorting = [] ∧ waitCalls sorting = [] ∧
      (sortCalls sorting).length ≤ 1 ∧
      (∀ count ∈ sortCalls sorting, 1 < count ∧
        (forkAndExecChildProcesses env.fork env.execl env.indeterminate
          (structArrayInitialise (argv.drop 1) env.stack ((argv.length : Int) - 1))
          ((argv.length : Int) - 1)).flow = Flow.returned count) ∧
      forkCalls reaping = [] ∧ sortCalls reaping = [] ∧
      (reaping = [] ∨ ∃ count : Int,
        reaping = displayAllChildTermMsg
          (mainSortSection (forkAndExecChildProcesses env.fork env.execl env.indeterminate
            (structArrayInitialise (argv.drop 1) env.stack ((argv.length : Int) - 1))
            ((argv.length : Int) - 1)).childProcessArr count).2 count env.waits
          ++ [Event.print Output.allDone] ∧
        results reaping = (env.waits.takeWhile (fun w => 0 < w.1)).map
          (fun w => (getCommandPathFromPid
            (mainSortSection (forkAndExecChildProcesses env.fork env.execl env.indeterminate
              (structArrayInitialise (argv.drop 1) env.stack ((argv.length : Int) - 1))
              ((argv.length : Int) - 1)).childProcessArr count).2 count w.1,
            decide (checkIfTermSuccess w.2 = 0)))) := by
  obtain ⟨q1, q2⟩ := forkAndExecLoop_quiet env.fork env.execl ((argv.length : Int) - 1)
    ((argv.length : Int) - 1).toNat
    (structArrayInitialise (argv.drop 1) env.stack ((argv.length : Int) - 1)) 0
    env.indeterminate (by omega)
  have q1' : waitCalls (forkAndExecChildProcesses env.fork env.execl env.indeterminate
      (structArrayInitialise (argv.drop 1) env.stack ((argv.length : Int) - 1))
      ((argv.length : Int) - 1)).trace = [] := q1
  have q2' : sortCalls (forkAndExecChildProcesses env.fork env.execl env.indeterminate
      (structArrayInitialise (argv.drop 1) env.stack ((argv.length : Int) - 1))
      ((argv.length : Int) - 1)).trace = [] := q2
  unfold main
  by_cases hargc : (argv.length : Int) = 1
  · rw [if_pos hargc]
    exact ⟨[Event.print Output.noArgumentsError, Event.print (Output.usage argv[0]?)], [], [],
      by simp, rfl, rfl, rfl, rfl, by simp [sortCalls], by simp [sortCalls], rfl, rfl,
      Or.inl rfl⟩
  · rw [if_neg hargc]
    simp only []
    generalize hsp : forkAndExecChildProcesses env.fork env.execl env.indeterminate
      (structArrayInitialise (argv.drop 1) env.stack ((argv.length : Int) - 1))
      ((argv.length : Int) - 1) = spawned at q1' q2' ⊢
    obtain ⟨tr, reg, flow⟩ := spawned
    simp only at q1' q2' ⊢
    cases flow with
    | exited status =>
      exact ⟨Event.print Output.blankLines :: tr, [], [], by simp,
        by simpa [waitCalls] using q1', by simpa [sortCalls] using q2', rfl, rfl,
        by simp [sortCalls], by simp [sortCalls], rfl, rfl, Or.inl rfl⟩
    | replaced path =>
      exact ⟨Event.print Output.blankLines :: tr, [], [], by simp,
        by simpa [waitCalls] using q1', by simpa [sortCalls] using q2', rfl, rfl,
        by simp [sortCalls], by simp [sortCalls], rfl, rfl, Or.inl rfl⟩
    | returned num =>
      simp only []
      by_cases h0 : num = 0
      · rw [if_pos h0]
        refine ⟨Event.print Output.blankLines :: tr
            ++ [Event.print Output.failedToCreateAnyChild], [], [], by simp, ?_, ?_, rfl, rfl,
          by simp [sortCalls], by simp [sortCalls], rfl, rfl, Or.inl rfl⟩
        · simp [waitCalls, waitCalls_append, q1']
        · simp [sortCalls, sortCalls_append, q2']
      · rw [if_neg h0]
        obtain ⟨m1, -, m3, -, m5⟩ := extract_mainSortSection reg num
        obtain ⟨d1, d2, -⟩ := displayAllChildTermMsg_quiet (mainSortSection reg num).2 num
          env.waits
        refine ⟨Event.print Output.blankLines :: tr ++
            (if num < (argv.length : Int) - 1 then
              [Event.print (Output.failedToForkRemaining ((argv.length : Int) - 1 - num))]
            else []),
          (mainSortSection reg num).1,
          displayAllChildTermMsg (mainSortSection reg num).2 num env.waits
            ++ [Event.print Output.allDone], by simp, ?_, ?_, m1, m3, ?_, ?_, ?_, ?_,
          Or.inr ⟨num, rfl, ?_⟩⟩
        · split_ifs <;> simp [waitCalls, waitCalls_append, q1']
        · split_ifs <;> simp [sortCalls, sortCalls_append, q2']
        · rw [m5]; split_ifs <;> simp
        · intro count hc
          rw [m5] at hc
          split_ifs at hc with hgt
          · simp only [List.mem_singleton] at hc
            subst hc
            exact ⟨hgt, rfl⟩
          · simp at hc
        · simp [forkCalls, forkCalls_append, d1]
        · simp [sortCalls, sortCalls_append, d2]
        · rw [results_append, results_displayAllChildTermMsg]
          simp [results, receivedEvents]

/-- C17: binary-search midpoint: for `int` values with
`0 ≤ startIndex ≤ endIndex ≤ INT_MAX`, `startIndex + (endIndex - startIndex) / 2` is
computed without overflow in any intermediate step (the difference, its half, the sum),
equals the floor of `(startIndex + endIndex) / 2`, and lies between `startIndex` and
`endIndex`. -/
theorem middleIndexInt_no_overflow (startIndex endIndex : Int) (hstart : 0 ≤ startIndex)
    (horder : startIndex ≤ endIndex) (hend : endIndex ≤ INT_MAX) :
    asInt (endIndex - startIndex) = some (endIndex - startIndex) ∧
    asInt (Int.tdiv (endIndex - startIndex) 2) = some ((endIndex - startIndex) / 2) ∧
    middleIndexInt startIndex endIndex = some (startIndex + (endIndex - startIndex) / 2) ∧
    startIndex + (endIndex - startIndex) / 2 = (startIndex + endIndex) / 2 ∧
    startIndex ≤ startIndex + (endIndex - startIndex) / 2 ∧
    startIndex + (endIndex - startIndex) / 2 ≤ endIndex := by
  have hmax : INT_MAX = 2147483647 := rfl
  have hmin : INT_MIN = -2147483648 := rfl
  have hdiv : Int.tdiv (endIndex - startIndex) 2 = (endIndex - startIndex) / 2 :=
    Int.tdiv_eq_ediv (by omega) (by decide)
  have h1 : asInt (endIndex - startIndex) = some (endIndex - startIndex) := by
    unfold asInt
    rw [if_pos ⟨by omega, by omega⟩]
  have h2 : asInt (Int.tdiv (endIndex - startIndex) 2) = some ((endIndex - startIndex) / 2) := by
    rw [hdiv]
    unfold asInt
    rw [if_pos ⟨by omega, by omega⟩]
  have h3 : asInt (startIndex + (endIndex - startIndex) / 2)
      = some (startIndex + (endIndex - startIndex) / 2) := by
    unfold asInt
    rw [if_pos ⟨by omega, by omega⟩]
  refine ⟨h1, h2, ?_, by omega, by omega, by omega⟩
  unfold middleIndexInt
  rw [h1, Option.some_bind, h2, Option.some_bind, h3]

/-- Witness of C17: the two largest indices. -/
theorem middleIndexInt_no_overflow_witness :
    middleIndexInt 2147483646 2147483647 = some 2147483646 ∧
    asInt (2147483646 + 2147483647) = none :=
  ⟨(middleIndexInt_no_overflow 2147483646 2147483647 (by decide) (by decide)
      (by decide)).2.2.1, by decide⟩

/-- C18, counterexample: the single record of the index has the pid 5 and no command
path; the lookup of 5 returns `NULL` although a record has the target pid. -/
theorem getCommandPathFromPid_null_iff_counterexample :
    (window pathlessIndex 1).map Process.processId = [5] ∧
    getCommandPathFromPid pathlessIndex 1 5 = none := by
  decide

/-- C18, amended: on records ascending by `processId`, `getCommandPathFromPid` returns
`NULL` when no record among the first `arrSize` has the target pid, and otherwise the
`commandPathPtr` of a record with the target pid; when the records hold command paths
(no `NULL`), it returns `NULL` if and only if no record has the target pid. -/
theorem getCommandPathFromPid_found_or_null (arr : ProcessArr) (arrSize : Nat) (target : Int)
    (hascending : List.Sorted (fun a b : Process => a.processId ≤ b.processId)
      (window arr arrSize)) :
    ((∀ p ∈ window arr arrSize, p.processId ≠ target) →
      getCommandPathFromPid arr arrSize target = none) ∧
    ((∃ p ∈ window arr arrSize, p.processId = target) →
      ∃ p ∈ window arr arrSize, p.processId = target ∧
        getCommandPathFromPid arr arrSize target = p.commandPathPtr) ∧
    ((∀ p ∈ window arr arrSize, p.commandPathPtr ≠ none) →
      (getCommandPathFromPid arr arrSize target = none ↔
        ∀ p ∈ window arr arrSize, p.processId ≠ target)) := by
  have hasc := (ascending_iff_sorted arr arrSize).2 hascending
  have habsent : (∀ p ∈ window arr arrSize, p.processId ≠ target) →
      getCommandPathFromPid arr arrSize target = none := by
    intro hno
    apply getCommandPathFromPid_absent
    intro j h0 hj
    obtain ⟨j', rfl⟩ := Int.eq_ofNat_of_zero_le h0
    exact hno _ ((mem_window arr arrSize _).2 ⟨j', by omega, rfl⟩)
  have hpresent : (∃ p ∈ window arr arrSize, p.processId = target) →
      ∃ p ∈ window arr arrSize, p.processId = target ∧
        getCommandPathFromPid arr arrSize target = p.commandPathPtr := by
    rintro ⟨p, hp, hpt⟩
    obtain ⟨i, hi, rfl⟩ := (mem_window arr arrSize p).1 hp
    obtain ⟨m, m1, m2, m3, m4⟩ := getCommandPathFromPid_present arr arrSize target hasc
      ⟨i, by omega, by omega, hpt⟩
    obtain ⟨m', rfl⟩ := Int.eq_ofNat_of_zero_le m1
    exact ⟨arr m', (mem_window arr arrSize _).2 ⟨m', by omega, rfl⟩, m3, m4⟩
  refine ⟨habsent, hpresent, ?_⟩
  intro hpaths
  constructor
  · intro hnone p hp hpt
    obtain ⟨q, hq, -, hq3⟩ := hpresent ⟨p, hp, hpt⟩
    rw [hnone] at hq3
    exact hpaths q hq hq3.symm
  · exact habsent

/-- Witness of C18, amended: the index of one record, looked up for its pid. -/
theorem getCommandPathFromPid_found_or_null_witness :
    ∃ p ∈ window sampleIndex 1, p.processId = 5 ∧
      getCommandPathFromPid sampleIndex (1 : Nat) 5 = p.commandPathPtr :=
  (getCommandPathFromPid_found_or_null sampleIndex 1 5 (by decide)).2.1
    ⟨⟨5, some "/bin/a"⟩, by decide, rfl⟩

/-- C19, the code at a failing input: sorting two records of which the second has the
smaller pid, the inner loop, after `currentIndex--`, reads the `processId` of the element
at index `-1`, which is not an element of the array. -/
theorem sortChildProcessArray_reads_index_minus_one :
    (sortChildProcessArrayTraced descendingPair 2).2
      = [Access.read 1, Access.read 0, Access.read 0, Access.write 1, Access.read (-1),
          Access.write 0] ∧
    Access.read (-1) ∈ (sortChildProcessArrayTraced descendingPair 2).2 ∧
    window (sortChildProcessArrayTraced descendingPair 2).1 2
      = [⟨1, some "/bin/b"⟩, ⟨2, some "/bin/a"⟩] := by
  decide

/-- C20: for every `arrSize ≥ 0`, every array contents and every target pid, the search
loop of `getCommandPathFromPid` terminates: the distance of `endIndex` and `startIndex`
gets strictly smaller from each iteration to every later one and there are at most
`arrSize` iterations; it reads the array at indices in `[0, arrSize)` only; for
`arrSize = 0` it makes no iteration and returns `NULL`. -/
theorem getCommandPathFromPid_terminates_in_bounds (arr : ProcessArr) (arrSize : Nat)
    (target : Int) :
    (getCommandPathFromPidTraced arr arrSize target).1
      = getCommandPathFromPid arr arrSize target ∧
    (∀ it ∈ (getCommandPathFromPidTraced arr arrSize target).2,
      0 ≤ it.middleIndex ∧ it.middleIndex < arrSize) ∧
    (getCommandPathFromPidTraced arr arrSize target).2.Pairwise
      (fun a b => b.endIndex - b.startIndex < a.endIndex - a.startIndex) ∧
    (getCommandPathFromPidTraced arr arrSize target).2.length ≤ arrSize ∧
    getCommandPathFromPidTraced arr 0 target = (none, []) := by
  obtain ⟨h1, h2, h3, h4⟩ := getCommandPathLoopTraced_spec arr target arrSize
    (arrSize : Int).toNat 0 ((arrSize : Int) - 1) (by omega) (le_refl 0) (by omega)
  refine ⟨h1, ?_, h3, ?_, rfl⟩
  · intro it hit
    obtain ⟨a, b, -, -⟩ := h2 it hit
    exact ⟨a, b⟩
  · have : ((getCommandPathFromPidTraced arr arrSize target).2.length : Int)
        ≤ max ((arrSize : Int) - 1 + 1 - 0) 0 := h4
    omega

end ConcurrentExec
